import Mathlib

/-!
# Console calculator: arithmetic, exponentiation and iterative roots

A shallow embedding of the C calculator (`divide.c`, `exponent.c`, `sqrt.c`,
`nthRoot.c`, `main.c`) together with theorems about it.

Modelling conventions.

* There are two embeddings.  In the first a C `double` is an exact rational number
  (`ℚ`): the operations `+ - * /` are the exact field operations, there is no rounding,
  no infinity and no NaN.  In the second (`Calculator.Machine`, for `divide`, `exponent`
  and `squareRoot`) a `double` is an IEEE 754 binary64 number and every operation rounds
  to nearest, ties to even, with subnormal numbers, underflow to 0 and overflow to an
  infinity; the sign of zero is not recorded.
* A call either has undefined behaviour (`Calc.undefined`) or returns a value
  together with the list of events it produced, in program order
  (`Calc.done v events`).  The events are the diagnostic lines printed with `printf`,
  plus one ghost event `Event.iteration` for every execution of the body of a
  root-finding loop.
* The conversion `(int)x` truncates toward zero and is undefined when the truncated
  value does not fit a 32-bit `int`.
* The menu text and the prompts printed by `main` are not recorded.
-/

namespace Calculator

/-- Observable events of a run: the diagnostics printed by the program, the final
`Result:` line, and a ghost marker for one pass through a root-finding loop body. -/
inductive Event where
  /-- The line `Error! Division by zero.` printed by `divide`. -/
  | divisionByZero
  /-- The line `Error: Negative number cannot have a real square root.` -/
  | negativeSquareRoot
  /-- The line `Error: Negative number cannot have an even root.` -/
  | negativeEvenRoot
  /-- The line `Invalid operation` printed by `main`. -/
  | invalidOperation
  /-- The line `Result: r` printed by `main` (the value, before formatting). -/
  | result (r : ℚ)
  /-- Ghost event: the body of the `for` loop of `squareRoot` or `nthRoot` runs once. -/
  | iteration
  deriving DecidableEq, Repr

/-- The outcome of a call: undefined behaviour, or a normal return of `value` after
producing `events` (in program order). -/
inductive Calc (α : Type) where
  /-- The call has undefined behaviour. -/
  | undefined : Calc α
  /-- The call returns `value` after producing `events`. -/
  | done (value : α) (events : List Event) : Calc α
  deriving DecidableEq, Repr

/-- Sequencing: run `m`, then `f` on its value; events are concatenated in order. -/
def Calc.seq {α β : Type} (m : Calc α) (f : α → Calc β) : Calc β :=
  match m with
  | .undefined => .undefined
  | .done a es =>
    match f a with
    | .undefined => .undefined
    | .done b es' => .done b (es ++ es')

instance : Monad Calc where
  pure a := .done a []
  bind := Calc.seq

/-- Produce one event. -/
def emit (e : Event) : Calc Unit := .done () [e]

/-- Truncation toward zero: the value of a C conversion from `double` to an integer
type wide enough to hold it. -/
def truncate (x : ℚ) : ℤ := if 0 ≤ x then ⌊x⌋ else ⌈x⌉

/-- The C conversion `(int)x` for a 32-bit `int`: truncation toward zero, undefined
when the truncated value is not representable. -/
def toInt (x : ℚ) : Calc ℤ :=
  if -(2 : ℤ) ^ 31 ≤ truncate x ∧ truncate x < (2 : ℤ) ^ 31 then pure (truncate x)
  else .undefined

/-! ## Basic arithmetic -/

/-- Modelled from the spec: `add(a, b) -> a+b` (§4.1); `add.c` is not among the
available sources. -/
def add (a b : ℚ) : ℚ := a + b

/-- Modelled from the spec: `subtract(a, b) -> a-b` (§4.1); `subtract.c` is not among
the available sources. -/
def subtract (a b : ℚ) : ℚ := a - b

/-- Modelled from the spec: `multiply(a, b) -> a*b` (§4.1); `multiply.c` is not among
the available sources. -/
def multiply (a b : ℚ) : ℚ := a * b

/-- Modelled from the spec: `modulus(a, b)` is the integer remainder of its (already
truncated) operands (§4.1, §8); `modulus.c` is not among the available sources.  The
remainder is the one of the C operator `%` (it has the sign of the dividend); the spec
gives no result for a zero divisor, which is left undefined. -/
def modulus (a b : ℤ) : Calc ℤ :=
  if b = 0 then .undefined else pure (Int.tmod a b)

/-- The function `divide` of `divide.c`. -/
def divide (num1 num2 : ℚ) : Calc ℚ :=
  if num2 = 0 then do
    emit Event.divisionByZero
    pure 0
  else
    pure (num1 / num2)

/-! ## Exponentiation -/

/-- The `for` loop of `exponent`: `count` further passes of
`result = multiply(result, base)`. -/
def exponentLoop (base : ℚ) : ℕ → ℚ → ℚ
  | 0, result => result
  | count + 1, result => exponentLoop base count (multiply result base)

/-- The function `exponent` of `exponent.c`. -/
def exponent (base exp : ℚ) : Calc ℚ := do
  let result : ℚ := 1
  let positiveExp : ℚ := if exp > 0 then exp else -exp
  let bound ← toInt positiveExp
  let result := exponentLoop base bound.toNat result
  if exp < 0 then
    divide 1 result
  else
    pure result

/-! ## Root finding -/

/-- The `for` loop shared by `squareRoot` and `nthRoot`: at most `fuel` further
passes of `result = body(guess); if (result == guess) break; guess = result;`,
returning `result`.  After a pass that does not break, `guess` equals `result`, so
when the passes are used up the value of `result` is the current `guess`. -/
def rootLoop (body : ℚ → Calc ℚ) : ℕ → ℚ → Calc ℚ
  | 0, guess => pure guess
  | fuel + 1, guess => do
    emit Event.iteration
    let result ← body guess
    if result = guess then
      pure result
    else
      rootLoop body fuel result

/-- The Babylonian formula `divide(add(guess, divide(num, guess)), 2)`. -/
def squareRootStep (num guess : ℚ) : Calc ℚ := do
  let q ← divide num guess
  divide (add guess q) 2

/-- The function `squareRoot` of `sqrt.c`. -/
def squareRoot (num : ℚ) : Calc ℚ :=
  if num < 0 then do
    emit Event.negativeSquareRoot
    pure (-1)
  else
    let guess : ℚ := num / 2
    rootLoop (squareRootStep num) 1000 guess

/-- The Newton formula
`divide(add(multiply(n - 1, guess), divide(num, exponent(guess, n - 1))), n)`. -/
def nthRootStep (num n guess : ℚ) : Calc ℚ := do
  let p ← exponent guess (n - 1)
  let q ← divide num p
  divide (add (multiply (n - 1) guess) q) n

/-- The test `(int)n % 2 == 0` of `nthRoot`. -/
def evenDegree (n : ℚ) : Calc Bool := do
  let k ← toInt n
  pure (decide (Int.tmod k 2 = 0))

/-- The function `nthRoot` of `nthRoot.c`.  The conversion `(int)n` is evaluated
only when `num < 0` (short-circuit `&&`). -/
def nthRoot (num n : ℚ) : Calc ℚ := do
  let isError ← if num < 0 then evenDegree n else pure false
  if isError then
    emit Event.negativeEvenRoot
    pure (-1)
  else
    let guess : ℚ := num / 2
    rootLoop (nthRootStep num n) 1000 guess

/-! ## The interactive shell -/

/-- The `switch` of `main` on the menu choice and the two operands read from the
input, followed by the `Result:` line; the value returned is the exit status. -/
def main (choice : ℤ) (num1 num2 : ℚ) : Calc ℤ := do
  let result : Option ℚ ←
    (if choice = 1 then pure (some (add num1 num2))
    else if choice = 2 then pure (some (subtract num1 num2))
    else if choice = 3 then pure (some (multiply num1 num2))
    else if choice = 4 then do
      let r ← divide num1 num2
      pure (some r)
    else if choice = 5 then do
      let a ← toInt num1
      let b ← toInt num2
      let r ← modulus a b
      pure (some (r : ℚ))
    else if choice = 6 then do
      let r ← exponent num1 num2
      pure (some r)
    else if choice = 7 then do
      let r ← squareRoot num1
      pure (some r)
    else if choice = 8 then do
      let r ← nthRoot num1 num2
      pure (some r)
    else pure none : Calc (Option ℚ))
  match result with
  | none => do
    emit Event.invalidOperation
    pure 1
  | some r => do
    emit (Event.result r)
    pure 0

/-! ## The update rules in the words of the specification -/

/-- The update `next = (guess + num/guess) / 2` of the Babylonian method, on exact
numbers. -/
def babylonianUpdate (num g : ℚ) : ℚ := (g + num / g) / 2

/-- The update `next = ((n-1)*guess + num / guess^(n-1)) / n` of Newton's method for
the root of degree `n`, on exact numbers. -/
def newtonUpdate (num : ℚ) (n : ℕ) (g : ℚ) : ℚ := (((n : ℚ) - 1) * g + num / g ^ (n - 1)) / n

/-! ## Values and events of the steps -/

/-- The value returned by `divide`: the quotient, or the sentinel 0 for a zero divisor. -/
def divideValue (a b : ℚ) : ℚ := if b = 0 then 0 else a / b

/-- The events of a call of `divide`: one report for a zero divisor, none otherwise. -/
def divideEvents (b : ℚ) : List Event := if b = 0 then [Event.divisionByZero] else []

/-- The value returned by `squareRootStep`. -/
def squareRootStepValue (num g : ℚ) : ℚ := divideValue (g + divideValue num g) 2

/-- The value returned by `nthRootStep` for a degree that is a natural number. -/
def nthRootStepValue (num : ℚ) (n : ℕ) (g : ℚ) : ℚ :=
  divideValue (((n : ℚ) - 1) * g + divideValue num (g ^ (n - 1))) n

/-- The sequence `x_0 = num/2`, `x_(i+1) = divide(x_i + divide(num, x_i), 2)`, each
`divide` read as the value it returns. -/
def babylonianSequence (num : ℚ) : ℕ → ℚ
  | 0 => num / 2
  | i + 1 =>
    divideValue (babylonianSequence num i + divideValue num (babylonianSequence num i)) 2

/-! ## Machine doubles

A second embedding of `divide`, `exponent` and `squareRoot`, over IEEE 754 binary64
numbers with the default rounding (to nearest, ties to even), for the claims whose
truth depends on rounding, underflow or overflow.  The sign of zero is not recorded. -/

namespace Machine

/-- A C `double`: a finite number, an infinity, or a NaN.  The finite values that
arise are the binary64 numbers `m * 2^e` with `|m| < 2^53` and `-1074 ≤ e ≤ 971`. -/
inductive Double where
  /-- A finite value. -/
  | finite (q : ℚ)
  /-- Positive infinity. -/
  | posInf
  /-- Negative infinity. -/
  | negInf
  /-- Not a number. -/
  | nan
  deriving DecidableEq, Repr

/-- Rounding of a rational to the nearest integer, ties to the even one. -/
def roundHalfEven (y : ℚ) : ℤ :=
  if y - ⌊y⌋ < 1 / 2 then ⌊y⌋
  else if 1 / 2 < y - ⌊y⌋ then ⌊y⌋ + 1
  else if ⌊y⌋ % 2 = 0 then ⌊y⌋
  else ⌊y⌋ + 1

/-- The exponent of the unit in the last place of the binary64 format at `x`: 52 below
the binary exponent of `x`, and never below the subnormal exponent `-1074`. -/
def quantum (x : ℚ) : ℤ := max (Int.log 2 |x| - 52) (-1074)

/-- The nearest multiple of the unit in the last place at `x`, ties to even. -/
def roundedValue (x : ℚ) : ℚ := (roundHalfEven (x / 2 ^ quantum x) : ℚ) * 2 ^ quantum x

/-- The binary64 value of the exact result `x` of an operation: the nearest multiple of
the unit in the last place, ties to even, and an infinity when that multiple is beyond
the largest finite number. -/
def roundToDouble (x : ℚ) : Double :=
  if 2 ^ 1024 ≤ roundedValue x then .posInf
  else if roundedValue x ≤ -2 ^ 1024 then .negInf
  else .finite (roundedValue x)

/-- The C operator `==` on doubles. -/
def Double.eq : Double → Double → Bool
  | .finite a, .finite b => decide (a = b)
  | .posInf, .posInf => true
  | .negInf, .negInf => true
  | _, _ => false

/-- The C operator `<` on doubles. -/
def Double.lt : Double → Double → Bool
  | .finite a, .finite b => decide (a < b)
  | .finite _, .posInf => true
  | .negInf, .finite _ => true
  | .negInf, .posInf => true
  | _, _ => false

/-- The C unary minus on doubles. -/
def Double.neg : Double → Double
  | .finite a => .finite (-a)
  | .posInf => .negInf
  | .negInf => .posInf
  | .nan => .nan

/-- The C operator `+` on doubles. -/
def Double.add : Double → Double → Double
  | .finite a, .finite b => roundToDouble (a + b)
  | .finite _, .posInf => .posInf
  | .finite _, .negInf => .negInf
  | .posInf, .finite _ => .posInf
  | .posInf, .posInf => .posInf
  | .negInf, .finite _ => .negInf
  | .negInf, .negInf => .negInf
  | _, _ => .nan

/-- An infinity of the sign of `s`, or NaN for `s = 0`. -/
def Double.infOfSign (s : ℚ) : Double :=
  if s = 0 then .nan else if 0 < s then .posInf else .negInf

/-- The C operator `*` on doubles. -/
def Double.mul : Double → Double → Double
  | .finite a, .finite b => roundToDouble (a * b)
  | .finite a, .posInf => Double.infOfSign a
  | .finite a, .negInf => Double.infOfSign (-a)
  | .posInf, .finite b => Double.infOfSign b
  | .negInf, .finite b => Double.infOfSign (-b)
  | .posInf, .posInf => .posInf
  | .negInf, .negInf => .posInf
  | .posInf, .negInf => .negInf
  | .negInf, .posInf => .negInf
  | _, _ => .nan

/-- The C operator `/` on doubles (a zero divisor counts as `+0`). -/
def Double.div : Double → Double → Double
  | .finite a, .finite b => if b = 0 then Double.infOfSign a else roundToDouble (a / b)
  | .finite _, .posInf => .finite 0
  | .finite _, .negInf => .finite 0
  | .posInf, .finite b => if 0 ≤ b then .posInf else .negInf
  | .negInf, .finite b => if 0 ≤ b then .negInf else .posInf
  | _, _ => .nan

/-- The C conversion `(int)x` of a double: truncation toward zero, undefined when the
truncated value does not fit a 32-bit `int`, and for infinities and NaN. -/
def toInt : Double → Calc ℤ
  | .finite q => Calculator.toInt q
  | _ => .undefined

/-- Modelled from the spec: `add(a, b) -> a+b` (§4.1), on doubles. -/
def add (a b : Double) : Double := Double.add a b

/-- Modelled from the spec: `multiply(a, b) -> a*b` (§4.1), on doubles. -/
def multiply (a b : Double) : Double := Double.mul a b

/-- The function `divide` of `divide.c`, on doubles. -/
def divide (num1 num2 : Double) : Calc Double :=
  if Double.eq num2 (.finite 0) then do
    emit Event.divisionByZero
    pure (.finite 0)
  else
    pure (Double.div num1 num2)

/-- The `for` loop of `exponent`, on doubles. -/
def exponentLoop (base : Double) : ℕ → Double → Double
  | 0, result => result
  | count + 1, result => exponentLoop base count (multiply result base)

/-- The function `exponent` of `exponent.c`, on doubles. -/
def exponent (base exp : Double) : Calc Double := do
  let result : Double := .finite 1
  let positiveExp : Double := if Double.lt (.finite 0) exp then exp else Double.neg exp
  let bound ← toInt positiveExp
  let result := exponentLoop base bound.toNat result
  if Double.lt exp (.finite 0) then
    divide (.finite 1) result
  else
    pure result

/-- The `for` loop of `squareRoot`, on doubles, as a state machine on the remaining
passes, the guess and the events so far: a pass adds the ghost event and the events of
`result = body(guess)`, then ends the loop with `result` when `result == guess` and
continues with `guess = result` otherwise; when the passes are used up the value of
`result` is the current guess. -/
def rootLoop (body : Double → Calc Double) : ℕ → Double → List Event → Calc Double
  | 0, guess, events => .done guess events
  | fuel + 1, guess, events =>
    match body guess with
    | .undefined => .undefined
    | .done result es =>
      if Double.eq result guess then .done result (events ++ Event.iteration :: es)
      else rootLoop body fuel result (events ++ Event.iteration :: es)

/-- The Babylonian formula `divide(add(guess, divide(num, guess)), 2)`, on doubles. -/
def squareRootStep (num guess : Double) : Calc Double := do
  let q ← divide num guess
  divide (add guess q) (.finite 2)

/-- The function `squareRoot` of `sqrt.c`, on doubles. -/
def squareRoot (num : Double) : Calc Double :=
  if Double.lt num (.finite 0) then do
    emit Event.negativeSquareRoot
    pure (.finite (-1))
  else
    let guess : Double := Double.div num (.finite 2)
    rootLoop (squareRootStep num) 1000 guess []

end Machine

/-! ## Sequencing lemmas -/

theorem pure_def {α : Type} (a : α) : (pure a : Calc α) = .done a [] := rfl

theorem undefined_bind {α β : Type} (f : α → Calc β) :
    ((.undefined : Calc α) >>= f) = .undefined := rfl

theorem done_nil_bind {α β : Type} (a : α) (f : α → Calc β) :
    ((.done a [] : Calc α) >>= f) = f a := by
  show Calc.seq _ _ = _
  unfold Calc.seq
  cases h : f a <;> simp [h]

theorem done_bind_done {α β : Type} (a : α) (es : List Event) (f : α → Calc β) (b : β)
    (es' : List Event) (h : f a = .done b es') :
    ((.done a es : Calc α) >>= f) = .done b (es ++ es') := by
  show Calc.seq _ _ = _
  unfold Calc.seq
  simp [h]

theorem emit_bind_done {β : Type} (e : Event) (f : Unit → Calc β) (b : β)
    (es : List Event) (h : f () = .done b es) : (emit e >>= f) = .done b (e :: es) :=
  done_bind_done () [e] f b es h

/-! ## Conversions to `int` -/

theorem truncate_intCast (k : ℤ) : truncate (k : ℚ) = k := by
  unfold truncate
  split <;> simp

theorem toInt_intCast (k : ℤ) (hlo : -(2 : ℤ) ^ 31 ≤ k) (hhi : k < (2 : ℤ) ^ 31) :
    toInt (k : ℚ) = .done k [] := by
  unfold toInt
  rw [truncate_intCast, if_pos ⟨hlo, hhi⟩]
  rfl

theorem toInt_natCast (n : ℕ) (hn : n < 2 ^ 31) : toInt (n : ℚ) = .done (n : ℤ) [] := by
  have hlo : -(2 : ℤ) ^ 31 ≤ (n : ℤ) := le_trans (by norm_num) (Int.natCast_nonneg n)
  have h := toInt_intCast (n : ℤ) hlo (by exact_mod_cast hn)
  simpa using h

/-! ## Division -/

theorem divide_zero (a : ℚ) : divide a 0 = .done 0 [Event.divisionByZero] := by
  simp [divide, emit, pure_def]
  rfl

theorem divide_ne_zero (a : ℚ) {b : ℚ} (hb : b ≠ 0) : divide a b = .done (a / b) [] := by
  simp [divide, hb, pure_def]

/-! ## Exponentiation -/

theorem exponentLoop_eq (base : ℚ) (count : ℕ) (result : ℚ) :
    exponentLoop base count result = result * base ^ count := by
  induction count generalizing result with
  | zero => simp [exponentLoop]
  | succ k ih => rw [exponentLoop, ih, multiply, pow_succ]; ring

theorem exponent_natCast (base : ℚ) (n : ℕ) (hn : n < 2 ^ 31) :
    exponent base (n : ℚ) = .done (base ^ n) [] := by
  unfold exponent
  have hpos : (if (n : ℚ) > 0 then (n : ℚ) else -(n : ℚ)) = (n : ℚ) := by
    rcases Nat.eq_zero_or_pos n with h | h
    · simp [h]
    · rw [if_pos (by exact_mod_cast h)]
  have hneg : ¬ ((n : ℚ) < 0) := by simp
  simp only [hpos, toInt_natCast n hn, done_nil_bind, if_neg hneg, exponentLoop_eq,
    Int.toNat_ofNat, one_mul, pure_def]

theorem exponent_neg_natCast (base : ℚ) (n : ℕ) (hpos : 0 < n) (hn : n < 2 ^ 31) :
    exponent base (-(n : ℚ)) = divide 1 (base ^ n) := by
  unfold exponent
  have hn0 : (0 : ℚ) < n := by exact_mod_cast hpos
  have hmag : (if -(n : ℚ) > 0 then -(n : ℚ) else - -(n : ℚ)) = (n : ℚ) := by
    rw [if_neg (by linarith), neg_neg]
  have hneg : -(n : ℚ) < 0 := by linarith
  simp only [hmag, toInt_natCast n hn, done_nil_bind, if_pos hneg, exponentLoop_eq,
    Int.toNat_ofNat, one_mul]

/-! ## The root-finding loop -/

theorem rootLoop_zero (body : ℚ → Calc ℚ) (guess : ℚ) :
    rootLoop body 0 guess = .done guess [] := rfl

theorem rootLoop_succ (body : ℚ → Calc ℚ) (fuel : ℕ) (guess : ℚ) :
    rootLoop body (fuel + 1) guess =
      (emit Event.iteration >>= fun _ => body guess >>= fun result =>
        if result = guess then pure result else rootLoop body fuel result) := rfl

/-- A pass whose body returns the unchanged guess ends the loop. -/
theorem rootLoop_break (body : ℚ → Calc ℚ) (fuel : ℕ) (guess : ℚ)
    (h : body guess = .done guess []) :
    rootLoop body (fuel + 1) guess = .done guess [Event.iteration] := by
  rw [rootLoop_succ]
  apply emit_bind_done
  rw [h, done_nil_bind, if_pos rfl]
  rfl

/-- A pass whose body returns a new guess, without events, continues from it. -/
theorem rootLoop_continue (body : ℚ → Calc ℚ) (fuel : ℕ) (guess next v : ℚ)
    (es : List Event) (h : body guess = .done next []) (hne : next ≠ guess)
    (hrest : rootLoop body fuel next = .done v es) :
    rootLoop body (fuel + 1) guess = .done v (Event.iteration :: es) := by
  rw [rootLoop_succ]
  apply emit_bind_done
  rw [h, done_nil_bind, if_neg hne, hrest]

theorem rootLoop_contract (body : ℚ → Calc ℚ) (f : ℚ → ℚ) (P : ℚ → Prop) (d : ℚ → ℚ)
    (c : ℚ) (hc0 : 0 ≤ c) (hc1 : c < 1) (hd : ∀ g, P g → 0 ≤ d g)
    (hstep : ∀ g, P g → body g = .done (f g) [] ∧ P (f g) ∧ d (f g) ≤ c * d g) :
    ∀ (fuel : ℕ) (g : ℚ), P g → ∃ k, k ≤ fuel ∧
      rootLoop body fuel g = .done (f^[k] g) (List.replicate k Event.iteration) ∧
      P (f^[k] g) ∧ d (f^[k] g) ≤ c ^ fuel * d g := by
  intro fuel
  induction fuel with
  | zero =>
    intro g hg
    exact ⟨0, le_refl 0, rfl, hg, by simp⟩
  | succ fuel ih =>
    intro g hg
    obtain ⟨hbody, hP, hle⟩ := hstep g hg
    by_cases heq : f g = g
    · refine ⟨1, by omega, ?_, by simpa using hP, ?_⟩
      · rw [heq] at hbody
        simpa [heq] using rootLoop_break body fuel g hbody
      · have h0 : d g ≤ 0 := by
          rw [heq] at hle
          nlinarith [hd g hg]
        have h1 : d g = 0 := le_antisymm h0 (hd g hg)
        simp [heq, h1]
    · obtain ⟨k, hk, hrun, hPk, hdk⟩ := ih (f g) hP
      refine ⟨k + 1, by omega, ?_, by simpa [Function.iterate_succ_apply] using hPk, ?_⟩
      · rw [Function.iterate_succ_apply, List.replicate_succ]
        exact rootLoop_continue body fuel g (f g) _ _ hbody heq hrun
      · rw [Function.iterate_succ_apply, pow_succ]
        calc d (f^[k] (f g)) ≤ c ^ fuel * d (f g) := hdk
          _ ≤ c ^ fuel * (c * d g) := mul_le_mul_of_nonneg_left hle (pow_nonneg hc0 fuel)
          _ = c ^ fuel * c * d g := by ring


theorem squareRootStep_pos (num g : ℚ) (hg : 0 < g) :
    squareRootStep num g = .done (babylonianUpdate num g) [] := by
  unfold squareRootStep babylonianUpdate
  rw [divide_ne_zero num hg.ne', done_nil_bind, divide_ne_zero _ (by norm_num), add]

theorem babylonianUpdate_step (num g : ℚ) (hnum : 0 ≤ num) (hg : 0 < g) (hsq : num ≤ g * g) :
    0 < babylonianUpdate num g ∧
    num ≤ babylonianUpdate num g * babylonianUpdate num g ∧
    babylonianUpdate num g * babylonianUpdate num g - num ≤ 1 / 4 * (g * g - num) := by
  unfold babylonianUpdate
  have hq : 0 ≤ num / g := div_nonneg hnum hg.le
  have hkey : (g + num / g) / 2 * ((g + num / g) / 2) - num
      = (g * g - num) * (g * g - num) / (4 * (g * g)) := by
    field_simp
    ring
  have hgg : 0 < g * g := mul_pos hg hg
  refine ⟨by positivity, ?_, ?_⟩
  · have : 0 ≤ (g * g - num) * (g * g - num) / (4 * (g * g)) := by
      apply div_nonneg (mul_self_nonneg _) (by positivity)
    linarith
  · rw [hkey, div_le_iff₀ (by positivity)]
    nlinarith [mul_nonneg hnum (sub_nonneg.mpr hsq)]

/-- From a positive guess whose square is at least `num`, the loop of `squareRoot`
returns an iterate of the Babylonian update that is positive, whose square is at least
`num`, and whose square exceeds `num` by at most `4^(-fuel)` times the initial excess. -/
theorem squareRoot_loop (num : ℚ) (hnum : 0 ≤ num) (fuel : ℕ) (g : ℚ) (hg : 0 < g)
    (hsq : num ≤ g * g) : ∃ k, k ≤ fuel ∧
      rootLoop (squareRootStep num) fuel g
        = .done ((babylonianUpdate num)^[k] g) (List.replicate k Event.iteration) ∧
      0 < (babylonianUpdate num)^[k] g ∧
      num ≤ (babylonianUpdate num)^[k] g * (babylonianUpdate num)^[k] g ∧
      (babylonianUpdate num)^[k] g * (babylonianUpdate num)^[k] g - num
        ≤ (1 / 4) ^ fuel * (g * g - num) := by
  obtain ⟨k, hk, hrun, ⟨hpos, hlow⟩, hup⟩ :=
    rootLoop_contract (squareRootStep num) (babylonianUpdate num)
      (fun x => 0 < x ∧ num ≤ x * x) (fun x => x * x - num) (1 / 4) (by norm_num)
      (by norm_num) (fun x hx => sub_nonneg.mpr hx.2)
      (fun x hx => ⟨squareRootStep_pos num x hx.1,
        ⟨(babylonianUpdate_step num x hnum hx.1 hx.2).1,
         (babylonianUpdate_step num x hnum hx.1 hx.2).2.1⟩,
        (babylonianUpdate_step num x hnum hx.1 hx.2).2.2⟩)
      fuel g ⟨hg, hsq⟩
  exact ⟨k, hk, hrun, hpos, hlow, hup⟩

theorem squareRoot_of_not_neg (num : ℚ) (hnum : ¬ num < 0) :
    squareRoot num = rootLoop (squareRootStep num) (999 + 1) (num / 2) := by
  unfold squareRoot
  rw [if_neg hnum]


/-! ## Nth root -/

theorem nthRootStep_natCast (num : ℚ) (n : ℕ) (hn1 : 1 ≤ n) (hn : n < 2 ^ 31) (g : ℚ)
    (hg : g ≠ 0) : nthRootStep num (n : ℚ) g = .done (newtonUpdate num n g) [] := by
  have hcast : (n : ℚ) - 1 = ((n - 1 : ℕ) : ℚ) := by
    rw [Nat.cast_sub hn1, Nat.cast_one]
  have hn0 : (n : ℚ) ≠ 0 := by
    have : (0 : ℚ) < n := by exact_mod_cast hn1
    exact this.ne'
  unfold nthRootStep newtonUpdate
  rw [hcast, exponent_natCast g (n - 1) (by omega), done_nil_bind,
    divide_ne_zero num (pow_ne_zero _ hg), done_nil_bind, divide_ne_zero _ hn0, add, multiply]

theorem evenDegree_intCast (k : ℤ) (hlo : -(2 : ℤ) ^ 31 ≤ k) (hhi : k < (2 : ℤ) ^ 31) :
    evenDegree (k : ℚ) = .done (decide (Int.tmod k 2 = 0)) [] := by
  unfold evenDegree
  rw [toInt_intCast k hlo hhi, done_nil_bind]
  rfl

theorem nthRoot_of_nonneg (num n : ℚ) (hnum : ¬ num < 0) :
    nthRoot num n = rootLoop (nthRootStep num n) (999 + 1) (num / 2) := by
  unfold nthRoot
  rw [if_neg hnum, pure_def, done_nil_bind]
  rfl

theorem nthRoot_of_odd (num : ℚ) (k : ℤ) (hlo : -(2 : ℤ) ^ 31 ≤ k) (hhi : k < (2 : ℤ) ^ 31)
    (hodd : Int.tmod k 2 ≠ 0) :
    nthRoot num (k : ℚ) = rootLoop (nthRootStep num (k : ℚ)) (999 + 1) (num / 2) := by
  by_cases hnum : num < 0
  · unfold nthRoot
    rw [if_pos hnum, evenDegree_intCast k hlo hhi, done_nil_bind]
    simp only [hodd, decide_False]
    rfl
  · exact nthRoot_of_nonneg num k hnum

theorem nthRoot_of_even (num : ℚ) (k : ℤ) (hnum : num < 0) (hlo : -(2 : ℤ) ^ 31 ≤ k)
    (hhi : k < (2 : ℤ) ^ 31) (heven : Int.tmod k 2 = 0) :
    nthRoot num (k : ℚ) = .done (-1) [Event.negativeEvenRoot] := by
  unfold nthRoot
  rw [if_pos hnum, evenDegree_intCast k hlo hhi, done_nil_bind]
  simp only [heven, decide_True, if_true]
  exact emit_bind_done _ _ _ _ rfl

theorem newtonUpdate_cube27 (x : ℚ) (hx : 3 ≤ x) :
    3 ≤ newtonUpdate 27 3 x ∧ newtonUpdate 27 3 x - 3 ≤ 2 / 3 * (x - 3) := by
  have hx2 : (0 : ℚ) < x ^ 2 := by positivity
  have hq1 : 27 / x ^ 2 ≤ 3 := by
    rw [div_le_iff₀ hx2]
    nlinarith
  have hq2 : 9 - 2 * x ≤ 27 / x ^ 2 := by
    rw [le_div_iff₀ hx2]
    nlinarith [mul_nonneg (mul_self_nonneg (x - 3)) (by linarith : (0 : ℚ) ≤ 2 * x + 3)]
  unfold newtonUpdate
  norm_num
  constructor <;> linarith

theorem newtonUpdate_fourth16 (x : ℚ) (hx : 2 ≤ x) :
    2 ≤ newtonUpdate 16 4 x ∧ newtonUpdate 16 4 x - 2 ≤ 3 / 4 * (x - 2) := by
  have hx3 : (0 : ℚ) < x ^ 3 := by positivity
  have hx0 : (0 : ℚ) ≤ x - 2 := by linarith
  have hq1 : 16 / x ^ 3 ≤ 2 := by
    rw [div_le_iff₀ hx3]
    nlinarith [mul_nonneg hx0 hx0, mul_nonneg (mul_nonneg hx0 hx0) hx0]
  have hq2 : 8 - 3 * x ≤ 16 / x ^ 3 := by
    rw [le_div_iff₀ hx3]
    nlinarith [mul_nonneg (mul_self_nonneg (x - 2))
      (by nlinarith : (0 : ℚ) ≤ 3 * x ^ 2 + 4 * x + 4)]
  unfold newtonUpdate
  norm_num
  constructor <;> linarith

theorem newtonUpdate_cube_neg8 (x : ℚ) (hx : x ≤ -2) :
    newtonUpdate (-8) 3 x ≤ -2 ∧ -2 - newtonUpdate (-8) 3 x ≤ 2 / 3 * (-2 - x) := by
  have hx2 : (0 : ℚ) < x ^ 2 := by nlinarith
  have hq1 : -2 ≤ -8 / x ^ 2 := by
    rw [le_div_iff₀ hx2]
    nlinarith
  have hq2 : -8 / x ^ 2 ≤ -6 - 2 * x := by
    rw [div_le_iff₀ hx2]
    nlinarith [mul_nonneg (mul_self_nonneg (x + 2)) (by linarith : (0 : ℚ) ≤ 1 - x)]
  unfold newtonUpdate
  norm_num
  constructor <;> linarith

/-! ## Runs of `squareRoot` on the operands of the specification's examples -/

theorem squareRoot_four : squareRoot 4 = .done 2 [Event.iteration] := by
  rw [squareRoot_of_not_neg 4 (by norm_num), show (4 : ℚ) / 2 = 2 by norm_num]
  apply rootLoop_break
  rw [squareRootStep_pos 4 2 (by norm_num)]
  norm_num [babylonianUpdate]

theorem squareRoot_two_run : ∃ k, k ≤ 1000 ∧ ∃ v : ℚ,
    squareRoot 2 = .done v (List.replicate k Event.iteration) ∧
    v = (babylonianUpdate 2)^[k] (2 / 2) ∧ |v - 1.41421356| ≤ 1e-6 := by
  obtain ⟨k, hk, hrun, hpos, hlow, hup⟩ :=
    squareRoot_loop 2 (by norm_num) 999 (3 / 2) (by norm_num) (by norm_num)
  have hseed : babylonianUpdate 2 1 = 3 / 2 := by norm_num [babylonianUpdate]
  have hfirst : squareRootStep 2 1 = .done (3 / 2) [] := by
    rw [squareRootStep_pos 2 1 (by norm_num), hseed]
  have hsq : squareRoot 2 = rootLoop (squareRootStep 2) (999 + 1) 1 := by
    rw [squareRoot_of_not_neg 2 (by norm_num), show (2 : ℚ) / 2 = 1 by norm_num]
  refine ⟨k + 1, by omega, (babylonianUpdate 2)^[k] (3 / 2), ?_, ?_, ?_⟩
  · rw [hsq, List.replicate_succ]
    exact rootLoop_continue _ _ _ _ _ _ hfirst (by norm_num) hrun
  · rw [Function.iterate_succ_apply, show (2 : ℚ) / 2 = 1 by norm_num, hseed]
  · generalize (babylonianUpdate 2)^[k] (3 / 2) = v at hpos hlow hup
    have hsmall : (1 / 4 : ℚ) ^ 999 * (3 / 2 * (3 / 2) - 2) ≤ 1 / 10 ^ 12 := by norm_num
    have hup' : v * v ≤ 2 + 1 / 10 ^ 12 := by linarith
    rw [abs_le]
    constructor
    · by_contra hcon
      push_neg at hcon
      have h1 : v < 1.41421256 := by norm_num at hcon ⊢; linarith
      have h2 : v * v < 1.41421256 * 1.41421256 := by nlinarith
      norm_num at h2
      linarith
    · by_contra hcon
      push_neg at hcon
      have h1 : 1.41421456 < v := by norm_num at hcon ⊢; linarith
      have h2 : 1.41421456 * 1.41421456 < v * v := by nlinarith
      norm_num at h2 hup'
      linarith

/-! ## Runs of `nthRoot` on the operands of the specification's examples -/

theorem nthRoot_27_3_run : ∃ k, k ≤ 1000 ∧
    nthRoot 27 3 = .done ((newtonUpdate 27 3)^[k] (27 / 2)) (List.replicate k Event.iteration) ∧
    3 ≤ (newtonUpdate 27 3)^[k] (27 / 2) ∧
    (newtonUpdate 27 3)^[k] (27 / 2) - 3 ≤ (2 / 3) ^ 1000 * (27 / 2 - 3) := by
  have hstep : ∀ x : ℚ, x ≠ 0 → nthRootStep 27 3 x = .done (newtonUpdate 27 3 x) [] := by
    intro x hx
    have h := nthRootStep_natCast 27 3 (by norm_num) (by norm_num) x hx
    simp only [Nat.cast_ofNat] at h
    exact h
  obtain ⟨k, hk, hrun, hP, hd⟩ :=
    rootLoop_contract (nthRootStep 27 3) (newtonUpdate 27 3) (fun x => 3 ≤ x)
      (fun x => x - 3) (2 / 3) (by norm_num) (by norm_num) (fun x hx => sub_nonneg.mpr hx)
      (fun x hx => ⟨hstep x (ne_of_gt (lt_of_lt_of_le (by norm_num) hx)),
        (newtonUpdate_cube27 x hx).1, (newtonUpdate_cube27 x hx).2⟩)
      1000 (27 / 2) (by norm_num)
  rw [nthRoot_of_nonneg 27 3 (by norm_num)]
  exact ⟨k, hk, hrun, hP, hd⟩

theorem nthRoot_16_4_run : ∃ k, k ≤ 1000 ∧
    nthRoot 16 4 = .done ((newtonUpdate 16 4)^[k] (16 / 2)) (List.replicate k Event.iteration) ∧
    2 ≤ (newtonUpdate 16 4)^[k] (16 / 2) ∧
    (newtonUpdate 16 4)^[k] (16 / 2) - 2 ≤ (3 / 4) ^ 1000 * (16 / 2 - 2) := by
  have hstep : ∀ x : ℚ, x ≠ 0 → nthRootStep 16 4 x = .done (newtonUpdate 16 4 x) [] := by
    intro x hx
    have h := nthRootStep_natCast 16 4 (by norm_num) (by norm_num) x hx
    simp only [Nat.cast_ofNat] at h
    exact h
  obtain ⟨k, hk, hrun, hP, hd⟩ :=
    rootLoop_contract (nthRootStep 16 4) (newtonUpdate 16 4) (fun x => 2 ≤ x)
      (fun x => x - 2) (3 / 4) (by norm_num) (by norm_num) (fun x hx => sub_nonneg.mpr hx)
      (fun x hx => ⟨hstep x (ne_of_gt (lt_of_lt_of_le (by norm_num) hx)),
        (newtonUpdate_fourth16 x hx).1, (newtonUpdate_fourth16 x hx).2⟩)
      1000 (16 / 2) (by norm_num)
  rw [nthRoot_of_nonneg 16 4 (by norm_num)]
  exact ⟨k, hk, hrun, hP, hd⟩

theorem nthRoot_neg8_3_run : ∃ k, k ≤ 1000 ∧
    nthRoot (-8) 3
      = .done ((newtonUpdate (-8) 3)^[k] (-8 / 2)) (List.replicate k Event.iteration) ∧
    (newtonUpdate (-8) 3)^[k] (-8 / 2) ≤ -2 ∧
    -2 - (newtonUpdate (-8) 3)^[k] (-8 / 2) ≤ (2 / 3) ^ 1000 * (-2 - -8 / 2) := by
  have hstep : ∀ x : ℚ, x ≠ 0 → nthRootStep (-8) 3 x = .done (newtonUpdate (-8) 3 x) [] := by
    intro x hx
    have h := nthRootStep_natCast (-8) 3 (by norm_num) (by norm_num) x hx
    simp only [Nat.cast_ofNat] at h
    exact h
  obtain ⟨k, hk, hrun, hP, hd⟩ :=
    rootLoop_contract (nthRootStep (-8) 3) (newtonUpdate (-8) 3) (fun x => x ≤ -2)
      (fun x => -2 - x) (2 / 3) (by norm_num) (by norm_num) (fun x hx => sub_nonneg.mpr hx)
      (fun x hx => ⟨hstep x (ne_of_lt (lt_of_le_of_lt hx (by norm_num))),
        (newtonUpdate_cube_neg8 x hx).1, (newtonUpdate_cube_neg8 x hx).2⟩)
      1000 (-8 / 2) (by norm_num)
  have hodd := nthRoot_of_odd (-8) 3 (by norm_num) (by norm_num) (by decide)
  simp only [Int.cast_ofNat] at hodd
  rw [hodd]
  exact ⟨k, hk, hrun, hP, hd⟩

/-! ## Menu choice 5: modulus -/

theorem toInt_of_range (x : ℚ) (hlo : -(2 : ℤ) ^ 31 ≤ truncate x)
    (hhi : truncate x < (2 : ℤ) ^ 31) : toInt x = .done (truncate x) [] := by
  unfold toInt
  rw [if_pos ⟨hlo, hhi⟩]
  rfl

theorem toInt_of_large (x : ℚ) (h : (2 : ℤ) ^ 31 ≤ truncate x) : toInt x = .undefined := by
  unfold toInt
  rw [if_neg (by omega)]

theorem truncate_truncate (x : ℚ) : truncate ((truncate x : ℤ) : ℚ) = truncate x :=
  truncate_intCast _

theorem modulus_ne_zero (a b : ℤ) (hb : b ≠ 0) : modulus a b = .done (Int.tmod a b) [] := by
  unfold modulus
  rw [if_neg hb]
  rfl

/-- Menu choice 5: the `switch` of `main` runs the two conversions and `modulus`. -/
theorem main_five (num1 num2 : ℚ) :
    main 5 num1 num2 =
      ((toInt num1 >>= fun a => toInt num2 >>= fun b => modulus a b >>= fun r =>
          (pure (some (r : ℚ)) : Calc (Option ℚ))) >>= fun result =>
        (match result with
        | none => emit Event.invalidOperation >>= fun _ => pure 1
        | some r => emit (Event.result r) >>= fun _ => pure 0 : Calc ℤ)) := by
  unfold main
  norm_num

theorem main_five_of_range (a b : ℚ) (halo : -(2 : ℤ) ^ 31 ≤ truncate a)
    (hahi : truncate a < (2 : ℤ) ^ 31) (hblo : -(2 : ℤ) ^ 31 ≤ truncate b)
    (hbhi : truncate b < (2 : ℤ) ^ 31) (hb0 : truncate b ≠ 0) :
    main 5 a b = .done 0 [Event.result ((Int.tmod (truncate a) (truncate b) : ℤ) : ℚ)] := by
  rw [main_five, toInt_of_range a halo hahi, done_nil_bind, toInt_of_range b hblo hbhi,
    done_nil_bind, modulus_ne_zero _ _ hb0, done_nil_bind, pure_def, done_nil_bind]
  exact emit_bind_done _ _ _ _ rfl

theorem main_five_of_large (a b : ℚ) (h : (2 : ℤ) ^ 31 ≤ truncate a) :
    main 5 a b = .undefined := by
  rw [main_five, toInt_of_large a h]
  rfl

theorem truncate_of_nonneg (x : ℚ) (k : ℤ) (h0 : 0 ≤ x) (hlo : (k : ℚ) ≤ x)
    (hhi : x < (k : ℚ) + 1) : truncate x = k := by
  unfold truncate
  rw [if_pos h0, Int.floor_eq_iff]
  exact ⟨hlo, hhi⟩

theorem truncate_ten : truncate 10 = 10 :=
  truncate_of_nonneg 10 10 (by norm_num) (by norm_num) (by norm_num)

theorem truncate_three : truncate 3 = 3 :=
  truncate_of_nonneg 3 3 (by norm_num) (by norm_num) (by norm_num)

theorem truncate_ten_point_nine : truncate 10.9 = 10 :=
  truncate_of_nonneg 10.9 10 (by norm_num) (by norm_num) (by norm_num)

theorem truncate_three_point_nine : truncate 3.9 = 3 :=
  truncate_of_nonneg 3.9 3 (by norm_num) (by norm_num) (by norm_num)

theorem truncate_two_pow_31 : truncate 2147483648 = 2147483648 :=
  truncate_of_nonneg 2147483648 2147483648 (by norm_num) (by norm_num) (by norm_num)

/-! ## Runs with their events -/

theorem divide_eq (a b : ℚ) : divide a b = .done (divideValue a b) (divideEvents b) := by
  unfold divideValue divideEvents
  by_cases hb : b = 0
  · subst hb
    simp only [if_pos rfl]
    exact divide_zero a
  · simp only [if_neg hb]
    exact divide_ne_zero a hb

theorem done_bind_eq {α β : Type} (a : α) (es : List Event) (f : α → Calc β) :
    ((.done a es : Calc α) >>= f) =
      (match f a with
       | .undefined => .undefined
       | .done b es' => .done b (es ++ es')) := rfl

/-- A pass whose body returns the unchanged guess ends the loop. -/
theorem rootLoop_break_events (body : ℚ → Calc ℚ) (fuel : ℕ) (guess : ℚ) (es : List Event)
    (h : body guess = .done guess es) :
    rootLoop body (fuel + 1) guess = .done guess (Event.iteration :: es) := by
  rw [rootLoop_succ]
  apply emit_bind_done
  rw [h]
  have hk : (if guess = guess then (pure guess : Calc ℚ) else rootLoop body fuel guess)
      = .done guess [] := by
    rw [if_pos rfl]
    rfl
  have := done_bind_done guess es
    (fun result => if result = guess then (pure result : Calc ℚ) else rootLoop body fuel result)
    guess [] hk
  simpa using this

/-- A pass whose body returns a new guess continues from it. -/
theorem rootLoop_continue_events (body : ℚ → Calc ℚ) (fuel : ℕ) (guess next v : ℚ)
    (es0 es : List Event) (h : body guess = .done next es0) (hne : next ≠ guess)
    (hrest : rootLoop body fuel next = .done v es) :
    rootLoop body (fuel + 1) guess = .done v (Event.iteration :: (es0 ++ es)) := by
  rw [rootLoop_succ]
  apply emit_bind_done
  rw [h]
  apply done_bind_done
  rw [if_neg hne, hrest]

/-- A run of the loop with at least one pass begins with a pass. -/
theorem rootLoop_succ_events (body : ℚ → Calc ℚ) (fuel : ℕ) (guess v : ℚ) (es : List Event)
    (h : rootLoop body (fuel + 1) guess = .done v es) :
    ∃ es', es = Event.iteration :: es' := by
  rw [rootLoop_succ] at h
  unfold emit at h
  rw [done_bind_eq] at h
  split at h
  · exact absurd h (by simp)
  · rename_i b es' _
    refine ⟨es', ?_⟩
    injection h with _ h2
    simpa using h2.symm

/-- The loop over a body that always returns: the result is the iterate `f^[k]` of the
body's value function at the least `k ≥ 1` where the iterate repeats, or at `k = fuel`;
`k` is the number of passes, and besides the passes only division reports occur. -/
theorem rootLoop_trace (body : ℚ → Calc ℚ) (f : ℚ → ℚ)
    (hbody : ∀ g, ∃ es, body g = .done (f g) es ∧ ∀ e ∈ es, e = Event.divisionByZero) :
    ∀ (fuel : ℕ) (g : ℚ), ∃ k es, rootLoop body fuel g = .done (f^[k] g) es ∧
      es.count Event.iteration = k ∧ k ≤ fuel ∧ (0 < fuel → 0 < k) ∧
      (∀ e ∈ es, e = Event.iteration ∨ e = Event.divisionByZero) ∧
      (∀ j, 0 < j → j < k → f^[j] g ≠ f^[j - 1] g) ∧
      (k = fuel ∨ (0 < k ∧ f^[k] g = f^[k - 1] g)) := by
  intro fuel
  induction fuel with
  | zero =>
    intro g
    exact ⟨0, [], rfl, rfl, le_refl 0, fun h => absurd h (lt_irrefl 0), by simp,
      fun j h1 h2 => absurd h2 (Nat.not_lt_zero j), Or.inl rfl⟩
  | succ fuel ih =>
    intro g
    obtain ⟨es0, hes0, honly⟩ := hbody g
    have hcount : es0.count Event.iteration = 0 := by
      rw [List.count_eq_zero]
      intro hmem
      exact absurd (honly _ hmem) (by decide)
    by_cases heq : f g = g
    · refine ⟨1, Event.iteration :: es0, ?_, ?_, by omega, fun _ => Nat.one_pos, ?_, ?_, ?_⟩
      · rw [heq] at hes0
        simpa [heq] using rootLoop_break_events body fuel g es0 hes0
      · simp [hcount]
      · intro e he
        rcases List.mem_cons.mp he with h | h
        · exact Or.inl h
        · exact Or.inr (honly e h)
      · intro j h1 h2
        omega
      · exact Or.inr ⟨Nat.one_pos, by simp [heq]⟩
    · obtain ⟨k, es, hrun, hk, hle, _, hev, hneq, hlast⟩ := ih (f g)
      refine ⟨k + 1, Event.iteration :: (es0 ++ es), ?_, ?_, by omega,
        fun _ => Nat.succ_pos k, ?_, ?_, ?_⟩
      · rw [Function.iterate_succ_apply]
        exact rootLoop_continue_events body fuel g (f g) _ es0 es hes0 heq hrun
      · simp [hcount, hk]
      · intro e he
        rcases List.mem_cons.mp he with h | h
        · exact Or.inl h
        · rcases List.mem_append.mp h with h | h
          · exact Or.inr (honly e h)
          · exact hev e h
      · intro j h1 h2
        rcases Nat.lt_or_ge 1 j with hj | hj
        · have h := hneq (j - 1) (by omega) (by omega)
          have e1 : f^[j] g = f^[j - 1] (f g) := by
            rw [← Function.iterate_succ_apply]
            congr 2
            omega
          have e2 : f^[j - 1] g = f^[j - 1 - 1] (f g) := by
            rw [← Function.iterate_succ_apply]
            congr 2
            omega
          rw [e1, e2]
          exact h
        · have hj1 : j = 1 := by omega
          subst hj1
          simpa using heq
      · rcases hlast with h | ⟨h1, h2⟩
        · exact Or.inl (by omega)
        · refine Or.inr ⟨Nat.succ_pos k, ?_⟩
          have e2 : f^[k + 1 - 1] g = f^[k - 1] (f g) := by
            rw [← Function.iterate_succ_apply]
            congr 2
            omega
          rw [Function.iterate_succ_apply, e2]
          exact h2

/-- Two loops whose bodies mirror each other in sign run in step: same events,
opposite values. -/
theorem rootLoop_mirror (body body' : ℚ → Calc ℚ)
    (hbody : ∀ g, ∃ v es, body g = .done v es ∧ body' (-g) = .done (-v) es ∧
      ∀ e ∈ es, e = Event.divisionByZero) :
    ∀ (fuel : ℕ) (g : ℚ), ∃ v es, rootLoop body fuel g = .done v es ∧
      rootLoop body' fuel (-g) = .done (-v) es ∧
      (∀ e ∈ es, e = Event.iteration ∨ e = Event.divisionByZero) := by
  intro fuel
  induction fuel with
  | zero =>
    intro g
    exact ⟨g, [], rfl, rfl, by simp⟩
  | succ fuel ih =>
    intro g
    obtain ⟨v0, es0, h1, h2, honly⟩ := hbody g
    by_cases heq : v0 = g
    · subst heq
      refine ⟨v0, Event.iteration :: es0, rootLoop_break_events body fuel v0 es0 h1,
        rootLoop_break_events body' fuel (-v0) es0 h2, ?_⟩
      intro e he
      rcases List.mem_cons.mp he with h | h
      · exact Or.inl h
      · exact Or.inr (honly e h)
    · obtain ⟨v, es, hr1, hr2, hev⟩ := ih v0
      refine ⟨v, Event.iteration :: (es0 ++ es),
        rootLoop_continue_events body fuel g v0 v es0 es h1 heq hr1,
        rootLoop_continue_events body' fuel (-g) (-v0) (-v) es0 es h2
          (fun h => heq (neg_injective h)) hr2, ?_⟩
      intro e he
      rcases List.mem_cons.mp he with h | h
      · exact Or.inl h
      · rcases List.mem_append.mp h with h | h
        · exact Or.inr (honly e h)
        · exact hev e h

theorem divideEvents_only (b : ℚ) : ∀ e ∈ divideEvents b, e = Event.divisionByZero := by
  intro e he
  unfold divideEvents at he
  split at he
  · simpa using he
  · simp at he

theorem divideEvents_of_ne_zero {b : ℚ} (hb : b ≠ 0) : divideEvents b = [] := by
  unfold divideEvents
  rw [if_neg hb]

theorem divideValue_neg_left (a b : ℚ) : divideValue (-a) b = -divideValue a b := by
  unfold divideValue
  split
  · simp
  · rw [neg_div]

theorem divide_bind_divide (a b : ℚ) (h : ℚ → ℚ) (c : ℚ) :
    (divide a b >>= fun q => divide (h q) c)
      = .done (divideValue (h (divideValue a b)) c) (divideEvents b ++ divideEvents c) := by
  rw [divide_eq a b]
  exact done_bind_done _ _ _ _ _ (divide_eq _ c)

theorem squareRootStep_eq (num g : ℚ) :
    squareRootStep num g = .done (squareRootStepValue num g) (divideEvents g) := by
  unfold squareRootStep squareRootStepValue
  have h := divide_bind_divide num g (fun q => add g q) 2
  rw [divideEvents_of_ne_zero (by norm_num : (2 : ℚ) ≠ 0), List.append_nil] at h
  exact h

theorem nthRootStep_natCast_eq (num : ℚ) (n : ℕ) (hn1 : 1 ≤ n) (hn : n < 2 ^ 31) (g : ℚ) :
    nthRootStep num (n : ℚ) g
      = .done (nthRootStepValue num n g) (divideEvents (g ^ (n - 1))) := by
  have hcast : (n : ℚ) - 1 = ((n - 1 : ℕ) : ℚ) := by
    rw [Nat.cast_sub hn1, Nat.cast_one]
  have hn0 : (n : ℚ) ≠ 0 := by
    have : (0 : ℚ) < n := by exact_mod_cast hn1
    exact this.ne'
  unfold nthRootStep nthRootStepValue
  have h := divide_bind_divide num (g ^ (n - 1))
    (fun q => add (multiply ((n : ℚ) - 1) g) q) n
  rw [divideEvents_of_ne_zero hn0, List.append_nil] at h
  rw [hcast, exponent_natCast g (n - 1) (by omega), done_nil_bind]
  rw [hcast] at h
  exact h

/-- For degree 0 the last `divide` of the Newton formula has divisor 0: it reports and
the formula returns 0. -/
theorem nthRootStep_zero (num g : ℚ) :
    nthRootStep num 0 g
      = .done 0 (divideEvents g ++ (divideEvents (divideValue 1 g)
          ++ [Event.divisionByZero])) := by
  have hexp : exponent g (0 - 1) = .done (divideValue 1 g) (divideEvents g) := by
    have h := exponent_neg_natCast g 1 (by norm_num) (by norm_num)
    rw [pow_one, divide_eq] at h
    rw [← h]
    norm_num
  unfold nthRootStep
  rw [hexp]
  apply done_bind_done
  have h := divide_bind_divide num (divideValue 1 g)
    (fun q => add (multiply (0 - 1) g) q) 0
  have hv : ∀ x : ℚ, divideValue x 0 = 0 := fun x => by unfold divideValue; rw [if_pos rfl]
  have he : divideEvents 0 = [Event.divisionByZero] := by unfold divideEvents; rw [if_pos rfl]
  rw [hv, he] at h
  exact h

theorem nthRootStep_zero_at_zero (num : ℚ) :
    nthRootStep num 0 0 = .done 0
      [Event.divisionByZero, Event.divisionByZero, Event.divisionByZero] := by
  rw [nthRootStep_zero]
  simp [divideEvents, divideValue]

theorem nthRootStep_zero_at_ne_zero (num g : ℚ) (hg : g ≠ 0) :
    nthRootStep num 0 g = .done 0 [Event.divisionByZero] := by
  rw [nthRootStep_zero]
  simp [divideEvents, divideValue, hg]

/-! ## Degenerate runs: `squareRoot(0)` and degree 0 -/

theorem squareRoot_zero_run :
    squareRoot 0 = .done 0 [Event.iteration, Event.divisionByZero] := by
  rw [squareRoot_of_not_neg 0 (by norm_num), show (0 : ℚ) / 2 = 0 by norm_num]
  apply rootLoop_break_events
  rw [squareRootStep_eq]
  simp [squareRootStepValue, divideValue, divideEvents]

theorem nthRoot_zero_degree_at_zero :
    nthRoot 0 0 = .done 0 [Event.iteration, Event.divisionByZero, Event.divisionByZero,
      Event.divisionByZero] := by
  rw [nthRoot_of_nonneg 0 0 (by norm_num), show (0 : ℚ) / 2 = 0 by norm_num]
  exact rootLoop_break_events _ _ _ _ (nthRootStep_zero_at_zero 0)

theorem nthRoot_zero_degree_of_pos (num : ℚ) (hnum : 0 < num) :
    nthRoot num 0 = .done 0 [Event.iteration, Event.divisionByZero, Event.iteration,
      Event.divisionByZero, Event.divisionByZero, Event.divisionByZero] := by
  rw [nthRoot_of_nonneg num 0 (not_lt.mpr hnum.le)]
  have hg : num / 2 ≠ 0 := by positivity
  have hrest : rootLoop (nthRootStep num 0) (998 + 1) 0
      = .done 0 [Event.iteration, Event.divisionByZero, Event.divisionByZero,
          Event.divisionByZero] :=
    rootLoop_break_events _ _ _ _ (nthRootStep_zero_at_zero num)
  exact rootLoop_continue_events _ _ _ _ _ _ _ (nthRootStep_zero_at_ne_zero num _ hg)
    (Ne.symm hg) hrest

/-! ## Exponents that are not natural numbers -/

theorem exponent_of_nonneg (base exp : ℚ) (h0 : 0 ≤ exp) (hhi : truncate exp < (2 : ℤ) ^ 31) :
    exponent base exp = .done (base ^ (truncate exp).toNat) [] := by
  have hpos : (if exp > 0 then exp else -exp) = exp := by
    rcases h0.eq_or_lt with h | h
    · rw [← h]
      simp
    · rw [if_pos h]
  have ht : 0 ≤ truncate exp := by
    unfold truncate
    rw [if_pos h0]
    exact Int.floor_nonneg.mpr h0
  unfold exponent
  simp only [hpos, toInt_of_range exp (le_trans (by norm_num) ht) hhi, done_nil_bind,
    if_neg (not_lt.mpr h0), exponentLoop_eq, one_mul, pure_def]

theorem exponent_of_neg (base exp : ℚ) (hneg : exp < 0)
    (hhi : truncate (-exp) < (2 : ℤ) ^ 31) :
    exponent base exp = divide 1 (base ^ (truncate (-exp)).toNat) := by
  have hpos : (if exp > 0 then exp else -exp) = -exp := by
    rw [if_neg (not_lt.mpr hneg.le)]
  have ht : 0 ≤ truncate (-exp) := by
    unfold truncate
    rw [if_pos (by linarith)]
    exact Int.floor_nonneg.mpr (by linarith)
  unfold exponent
  simp only [hpos, toInt_of_range (-exp) (le_trans (by norm_num) ht) hhi, done_nil_bind,
    if_pos hneg, exponentLoop_eq, one_mul]

theorem truncate_lt_of_lt (x : ℚ) (h0 : 0 ≤ x) (h : x < 2 ^ 31) :
    truncate x < (2 : ℤ) ^ 31 := by
  unfold truncate
  rw [if_pos h0, Int.floor_lt]
  exact_mod_cast h

/-- The exponent and its truncation toward zero give the same run of `exponent`. -/
theorem exponent_truncate (base exp : ℚ) (hlo : -(2 : ℚ) ^ 31 < exp) (hhi : exp < 2 ^ 31) :
    ∃ v es, exponent base exp = .done v es ∧
      exponent base ((truncate exp : ℤ) : ℚ) = .done v es := by
  by_cases h0 : 0 ≤ exp
  · have ht : truncate exp < (2 : ℤ) ^ 31 := truncate_lt_of_lt exp h0 hhi
    have ht0 : 0 ≤ truncate exp := by
      unfold truncate
      rw [if_pos h0]
      exact Int.floor_nonneg.mpr h0
    refine ⟨_, _, exponent_of_nonneg base exp h0 ht, ?_⟩
    have h := exponent_of_nonneg base ((truncate exp : ℤ) : ℚ) (by exact_mod_cast ht0)
      (by rw [truncate_intCast]; exact ht)
    rw [truncate_intCast] at h
    exact h
  · push_neg at h0
    have hneg : truncate (-exp) = -truncate exp := by
      unfold truncate
      rw [if_pos (by linarith), if_neg (not_le.mpr h0), Int.floor_neg]
    have ht : truncate (-exp) < (2 : ℤ) ^ 31 :=
      truncate_lt_of_lt (-exp) (by linarith) (by linarith)
    have hle : truncate exp ≤ 0 := by
      unfold truncate
      rw [if_neg (not_le.mpr h0)]
      exact Int.ceil_le.mpr (by exact_mod_cast h0.le)
    rw [exponent_of_neg base exp h0 ht]
    rcases hle.eq_or_lt with hz | hlt
    · have hz' : truncate (-exp) = 0 := by rw [hneg, hz]; rfl
      rw [hz', hz]
      refine ⟨1, [], ?_, ?_⟩
      · rw [Int.toNat_zero, pow_zero, divide_ne_zero 1 one_ne_zero, div_one]
      · have h := exponent_natCast base 0 (by norm_num)
        simpa using h
    · have hq : ((truncate exp : ℤ) : ℚ) < 0 := by exact_mod_cast hlt
      have h := exponent_of_neg base ((truncate exp : ℤ) : ℚ) hq
        (by rw [← Int.cast_neg, truncate_intCast, ← hneg]; exact ht)
      rw [← Int.cast_neg, truncate_intCast, ← hneg] at h
      rw [h, divide_eq]
      exact ⟨_, _, rfl, rfl⟩

/-! ## The sequence of iterates of `squareRoot`; degrees 1 and 2 -/

theorem babylonianSequence_eq_iterate (num : ℚ) (i : ℕ) :
    babylonianSequence num i = (squareRootStepValue num)^[i] (num / 2) := by
  induction i with
  | zero => rfl
  | succ i ih =>
    rw [Function.iterate_succ_apply', ← ih]
    rfl

theorem nthRootStep_two (num : ℚ) : nthRootStep num 2 = squareRootStep num := by
  funext g
  have h := nthRootStep_natCast_eq num 2 (by norm_num) (by norm_num) g
  simp only [Nat.cast_ofNat] at h
  rw [h, squareRootStep_eq]
  have hv : nthRootStepValue num 2 g = squareRootStepValue num g := by
    unfold nthRootStepValue squareRootStepValue
    norm_num
  have he : g ^ (2 - 1) = g := by norm_num
  rw [hv, he]

theorem nthRootStep_one (num g : ℚ) : nthRootStep num 1 g = .done num [] := by
  have h := nthRootStep_natCast_eq num 1 (by norm_num) (by norm_num) g
  simp only [Nat.cast_one] at h
  rw [h]
  have hv : nthRootStepValue num 1 g = num := by
    unfold nthRootStepValue
    simp [divideValue]
  have he : divideEvents (g ^ (1 - 1)) = [] := by
    simp [divideEvents]
  rw [hv, he]

theorem squareRoot_of_nonneg_done (num : ℚ) (hnum : 0 ≤ num) :
    ∃ v es, squareRoot num = .done v es := by
  obtain ⟨k, es, hrun, _⟩ :=
    rootLoop_trace (squareRootStep num) (squareRootStepValue num)
      (fun g => ⟨divideEvents g, squareRootStep_eq num g, divideEvents_only g⟩)
      (999 + 1) (num / 2)
  exact ⟨_, es, by rw [squareRoot_of_not_neg num (not_lt.mpr hnum)]; exact hrun⟩

theorem nthRoot_one_eq (num : ℚ) :
    nthRoot num 1 = rootLoop (nthRootStep num 1) (999 + 1) (num / 2) := by
  have h := nthRoot_of_odd num 1 (by norm_num) (by norm_num) (by decide)
  simp only [Int.cast_one] at h
  exact h

/-! ## Square roots of positive numbers -/

theorem nthRootStepValue_mirror (x : ℚ) (n : ℕ) (hodd : Odd n) (g : ℚ) :
    nthRootStepValue (-x) n (-g) = -nthRootStepValue x n g ∧ (-g) ^ (n - 1) = g ^ (n - 1) := by
  have heven : Even (n - 1) := Nat.Odd.sub_odd hodd odd_one
  have hpow : (-g) ^ (n - 1) = g ^ (n - 1) := heven.neg_pow g
  refine ⟨?_, hpow⟩
  unfold nthRootStepValue
  rw [hpow, divideValue_neg_left, mul_neg, ← neg_add, divideValue_neg_left]

theorem tmod_two_of_odd (n : ℕ) (hodd : Odd n) : Int.tmod (n : ℤ) 2 ≠ 0 := by
  rw [Int.tmod_eq_emod (Int.natCast_nonneg n) (by norm_num)]
  obtain ⟨m, hm⟩ := hodd
  subst hm
  push_cast
  omega

theorem nthRoot_of_odd_natCast (num : ℚ) (n : ℕ) (hodd : Odd n) (hn : n < 2 ^ 31) :
    nthRoot num (n : ℚ) = rootLoop (nthRootStep num (n : ℚ)) (999 + 1) (num / 2) := by
  have hlo : -(2 : ℤ) ^ 31 ≤ (n : ℤ) := le_trans (by norm_num) (Int.natCast_nonneg n)
  have h := nthRoot_of_odd num (n : ℤ) hlo (by exact_mod_cast hn) (tmod_two_of_odd n hodd)
  simp only [Int.cast_natCast] at h
  exact h

/-- For an odd degree below `2^31` the runs on `x` and on `-x` mirror each other. -/
theorem nthRoot_mirror (n : ℕ) (hodd : Odd n) (hn : n < 2 ^ 31) (x : ℚ) :
    ∃ v es, nthRoot x (n : ℚ) = .done v es ∧ nthRoot (-x) (n : ℚ) = .done (-v) es ∧
      (∀ e ∈ es, e = Event.iteration ∨ e = Event.divisionByZero) := by
  have hn1 : 1 ≤ n := hodd.pos
  rw [nthRoot_of_odd_natCast x n hodd hn, nthRoot_of_odd_natCast (-x) n hodd hn, neg_div]
  apply rootLoop_mirror
  intro g
  refine ⟨nthRootStepValue x n g, divideEvents (g ^ (n - 1)),
    nthRootStep_natCast_eq x n hn1 hn g, ?_, divideEvents_only _⟩
  rw [nthRootStep_natCast_eq (-x) n hn1 hn (-g), (nthRootStepValue_mirror x n hodd g).1,
    (nthRootStepValue_mirror x n hodd g).2]

theorem toInt_undefined_bind {β : Type} (x : ℚ) (h : (2 : ℤ) ^ 31 ≤ truncate x)
    (f : ℤ → Calc β) : (toInt x >>= f) = .undefined := by
  rw [toInt_of_large x h]
  rfl

theorem truncate_two_pow_31_succ : truncate 2147483649 = 2147483649 :=
  truncate_of_nonneg 2147483649 2147483649 (by norm_num) (by norm_num) (by norm_num)

theorem nthRoot_neg_large_degree : nthRoot (-8) 2147483649 = .undefined := by
  unfold nthRoot evenDegree
  rw [if_pos (by norm_num),
    toInt_undefined_bind 2147483649 (by rw [truncate_two_pow_31_succ]; norm_num)]
  rfl

/-! ## The test of the error branch of `nthRoot` -/

theorem evenDegree_of_range (n : ℚ) (hlo : -(2 : ℤ) ^ 31 ≤ truncate n)
    (hhi : truncate n < (2 : ℤ) ^ 31) :
    evenDegree n = .done (decide (Int.tmod (truncate n) 2 = 0)) [] := by
  unfold evenDegree
  rw [toInt_of_range n hlo hhi, done_nil_bind]
  rfl

theorem even_iff_tmod_two (k : ℤ) : Even k ↔ Int.tmod k 2 = 0 :=
  ⟨fun h => Int.tmod_eq_zero_of_dvd (even_iff_two_dvd.mp h),
   fun h => even_iff_two_dvd.mpr (Int.dvd_of_tmod_eq_zero h)⟩

theorem nthRoot_neg_of_even (num n : ℚ) (hnum : num < 0) (hlo : -(2 : ℤ) ^ 31 ≤ truncate n)
    (hhi : truncate n < (2 : ℤ) ^ 31) (heven : Even (truncate n)) :
    nthRoot num n = .done (-1) [Event.negativeEvenRoot] := by
  unfold nthRoot
  rw [if_pos hnum, evenDegree_of_range n hlo hhi, done_nil_bind]
  simp only [(even_iff_tmod_two _).mp heven, decide_True, if_true]
  exact emit_bind_done _ _ _ _ rfl

theorem nthRoot_neg_of_not_even (num n : ℚ) (hnum : num < 0)
    (hlo : -(2 : ℤ) ^ 31 ≤ truncate n) (hhi : truncate n < (2 : ℤ) ^ 31)
    (hodd : ¬ Even (truncate n)) :
    nthRoot num n = rootLoop (nthRootStep num n) (999 + 1) (num / 2) := by
  have hne : Int.tmod (truncate n) 2 ≠ 0 := fun h => hodd ((even_iff_tmod_two _).mpr h)
  unfold nthRoot
  rw [if_pos hnum, evenDegree_of_range n hlo hhi, done_nil_bind]
  simp only [hne, decide_False]
  rfl

theorem truncate_of_abs_lt_one (n : ℚ) (h : |n| < 1) : truncate n = 0 := by
  rw [abs_lt] at h
  unfold truncate
  split
  · rw [Int.floor_eq_iff]
    constructor
    · simpa using ‹0 ≤ n›
    · simpa using h.2
  · rw [Int.ceil_eq_iff]
    constructor
    · simpa using h.1
    · push_cast
      linarith

theorem truncate_of_neg (x : ℚ) (k : ℤ) (h0 : x < 0) (hlo : (k : ℚ) - 1 < x)
    (hhi : x ≤ (k : ℚ)) : truncate x = k := by
  unfold truncate
  rw [if_neg (not_le.mpr h0), Int.ceil_eq_iff]
  exact ⟨hlo, hhi⟩

/-! ## Rounding to a double -/

namespace Machine

theorem roundHalfEven_intCast (n : ℤ) : roundHalfEven (n : ℚ) = n := by
  unfold roundHalfEven
  rw [Int.floor_intCast, sub_self, if_pos (by norm_num)]

theorem floor_le_roundHalfEven (y : ℚ) : ⌊y⌋ ≤ roundHalfEven y := by
  unfold roundHalfEven
  split_ifs <;> omega

theorem roundHalfEven_le_floor_succ (y : ℚ) : roundHalfEven y ≤ ⌊y⌋ + 1 := by
  unfold roundHalfEven
  split_ifs <;> omega

theorem le_roundHalfEven (n : ℤ) (y : ℚ) (h : (n : ℚ) ≤ y) : n ≤ roundHalfEven y :=
  le_trans (Int.le_floor.mpr h) (floor_le_roundHalfEven y)

/-- Rounding to the nearest integer moves a number by at most one half. -/
theorem abs_roundHalfEven_sub_le (y : ℚ) : |(roundHalfEven y : ℚ) - y| ≤ 1 / 2 := by
  have h1 : (⌊y⌋ : ℚ) ≤ y := Int.floor_le y
  have h2 : y < ⌊y⌋ + 1 := Int.lt_floor_add_one y
  unfold roundHalfEven
  rw [abs_le]
  split_ifs with ha hb hc
  · constructor <;> linarith
  · push_cast
    constructor <;> linarith
  · constructor <;> linarith
  · push_cast
    constructor <;> linarith

theorem roundHalfEven_of_abs_le_half (y : ℚ) (hy : |y| ≤ 1 / 2) : roundHalfEven y = 0 := by
  rw [abs_le] at hy
  rcases lt_or_le y 0 with hneg | hpos
  · have hf : ⌊y⌋ = -1 := by
      rw [Int.floor_eq_iff]
      push_cast
      constructor <;> linarith
    have hc : ((-1 : ℤ) : ℚ) = -1 := by norm_num
    unfold roundHalfEven
    rw [hf, hc]
    split_ifs with h1 h2 h3
    all_goals first | decide | (exfalso; linarith [hy.1, hy.2]) | exact absurd h3 (by decide)
  · have hf : ⌊y⌋ = 0 := by
      rw [Int.floor_eq_iff]
      push_cast
      constructor <;> linarith
    have hc : ((0 : ℤ) : ℚ) = 0 := by norm_num
    unfold roundHalfEven
    rw [hf, hc]
    split_ifs with h1 h2 h3
    all_goals first | decide | (exfalso; linarith [hy.1, hy.2]) | exact absurd h3 (by decide)

theorem quantum_ge (x : ℚ) : -1074 ≤ quantum x := le_max_right _ _

theorem two_zpow_pos (t : ℤ) : (0 : ℚ) < 2 ^ t := zpow_pos (by norm_num) t

theorem roundToDouble_eq (x : ℚ) :
    roundToDouble x =
      if 2 ^ 1024 ≤ roundedValue x then .posInf
      else if roundedValue x ≤ -2 ^ 1024 then .negInf
      else .finite (roundedValue x) := rfl

/-- Results of magnitude at most `2^-1075`, half the least subnormal, round to 0. -/
theorem roundToDouble_of_tiny (x : ℚ) (hx : |x| ≤ 2 ^ (-1075 : ℤ)) :
    roundToDouble x = .finite 0 := by
  have hq : |x / 2 ^ quantum x| ≤ 1 / 2 := by
    rw [abs_div, abs_of_pos (two_zpow_pos _), div_le_iff₀ (two_zpow_pos _)]
    have h1 : (2 : ℚ) ^ (-1074 : ℤ) ≤ 2 ^ quantum x :=
      zpow_le_zpow_right₀ (by norm_num) (quantum_ge x)
    have h2 : (2 : ℚ) ^ (-1075 : ℤ) = 1 / 2 * 2 ^ (-1074 : ℤ) := by
      rw [show (-1074 : ℤ) = -1075 + 1 by norm_num, zpow_add₀ (by norm_num), zpow_one]
      ring
    calc |x| ≤ 2 ^ (-1075 : ℤ) := hx
      _ = 1 / 2 * 2 ^ (-1074 : ℤ) := h2
      _ ≤ 1 / 2 * 2 ^ quantum x := mul_le_mul_of_nonneg_left h1 (by norm_num)
  have hv : roundedValue x = 0 := by
    unfold roundedValue
    rw [roundHalfEven_of_abs_le_half _ hq]
    simp
  rw [roundToDouble_eq, hv, if_neg (by norm_num), if_neg (by norm_num)]


theorem log_lt_of_abs_lt (x : ℚ) (hx : x ≠ 0) (j : ℤ) (h : |x| < 2 ^ j) :
    Int.log 2 |x| < j := by
  have := (Int.lt_zpow_iff_log_lt (R := ℚ) (b := 2) (by norm_num) (abs_pos.mpr hx)).mp
    (by exact_mod_cast h)
  exact this

theorem le_log_of_le_abs (x : ℚ) (hx : x ≠ 0) (j : ℤ) (h : 2 ^ j ≤ |x|) :
    j ≤ Int.log 2 |x| := by
  have := (Int.zpow_le_iff_le_log (R := ℚ) (b := 2) (by norm_num) (abs_pos.mpr hx)).mp
    (by exact_mod_cast h)
  exact this

theorem two_zpow_log_le (x : ℚ) (hx : x ≠ 0) : (2 : ℚ) ^ Int.log 2 |x| ≤ |x| := by
  have := Int.zpow_log_le_self (R := ℚ) (b := 2) (by norm_num) (abs_pos.mpr hx)
  exact_mod_cast this

/-- A multiple `m * 2^e` of a power of two at or above the unit in the last place is
its own nearest multiple. -/
theorem roundedValue_of_multiple (m e : ℤ) (he : quantum ((m : ℚ) * 2 ^ e) ≤ e) :
    roundedValue ((m : ℚ) * 2 ^ e) = (m : ℚ) * 2 ^ e := by
  unfold roundedValue
  generalize quantum ((m : ℚ) * 2 ^ e) = t at he
  obtain ⟨k, hk⟩ := Int.eq_ofNat_of_zero_le (sub_nonneg.mpr he)
  have hsplit : (2 : ℚ) ^ e = 2 ^ k * 2 ^ t := by
    rw [← zpow_natCast, ← zpow_add₀ (by norm_num), ← hk]
    congr 1
    ring
  have hquot : (m : ℚ) * 2 ^ e / 2 ^ t = ((m * 2 ^ k : ℤ) : ℚ) := by
    rw [hsplit]
    push_cast
    field_simp
    ring
  rw [hquot, roundHalfEven_intCast, hsplit]
  push_cast
  ring

/-- A binary64 number `m * 2^e` (`|m| < 2^53`, `e ≥ -1074`, magnitude below `2^1024`) is
its own rounding. -/
theorem roundToDouble_of_representable (m e : ℤ) (hm : |m| < 2 ^ 53) (he : -1074 ≤ e)
    (hmax : |(m : ℚ) * 2 ^ e| < 2 ^ 1024) :
    roundToDouble ((m : ℚ) * 2 ^ e) = .finite ((m : ℚ) * 2 ^ e) := by
  have hq : roundedValue ((m : ℚ) * 2 ^ e) = (m : ℚ) * 2 ^ e := by
    by_cases hm0 : m = 0
    · subst hm0
      unfold roundedValue
      simp [roundHalfEven_intCast 0, show roundHalfEven 0 = 0 from roundHalfEven_intCast 0]
    · apply roundedValue_of_multiple
      have hx0 : (m : ℚ) * 2 ^ e ≠ 0 :=
        mul_ne_zero (by exact_mod_cast hm0) (two_zpow_pos e).ne'
      have hlt : |(m : ℚ) * 2 ^ e| < 2 ^ (53 + e) := by
        rw [abs_mul, abs_of_pos (two_zpow_pos e), zpow_add₀ (by norm_num)]
        apply mul_lt_mul_of_pos_right _ (two_zpow_pos e)
        have : |(m : ℚ)| < 2 ^ 53 := by exact_mod_cast hm
        exact_mod_cast this
      have hlog := log_lt_of_abs_lt _ hx0 _ hlt
      unfold quantum
      exact max_le (by omega) he
  rw [abs_lt] at hmax
  rw [roundToDouble_eq, hq, if_neg (not_le.mpr hmax.2), if_neg (not_le.mpr hmax.1)]

/-- An exact result of at least `2^1024` overflows to `+∞`. -/
theorem roundToDouble_of_huge (x : ℚ) (hx : 2 ^ 1024 ≤ x) : roundToDouble x = .posInf := by
  have hpos : 0 < x := lt_of_lt_of_le (by positivity) hx
  have hx0 : x ≠ 0 := hpos.ne'
  have habs : |x| = x := abs_of_pos hpos
  have hlog : 1024 ≤ Int.log 2 |x| :=
    le_log_of_le_abs x hx0 1024 (by rw [habs, zpow_ofNat]; exact hx)
  have hq : quantum x = Int.log 2 |x| - 52 := by
    unfold quantum
    exact max_eq_left (by omega)
  have hpow : (2 : ℚ) ^ Int.log 2 |x|
      = ((2 ^ 52 : ℤ) : ℚ) * 2 ^ (Int.log 2 |x| - 52) := by
    have h : ((2 ^ 52 : ℤ) : ℚ) = (2 : ℚ) ^ (52 : ℤ) := by norm_num
    rw [h, ← zpow_add₀ (by norm_num)]
    congr 1
    ring
  have hle : (2 : ℚ) ^ Int.log 2 |x| ≤ roundedValue x := by
    unfold roundedValue
    rw [hq]
    have h52 : ((2 ^ 52 : ℤ) : ℚ) ≤ x / 2 ^ (Int.log 2 |x| - 52) := by
      rw [le_div_iff₀ (two_zpow_pos _), ← hpow]
      have := two_zpow_log_le x hx0
      rw [habs] at this ⊢
      exact this
    have hr := le_roundHalfEven _ _ h52
    rw [hpow]
    exact mul_le_mul_of_nonneg_right (by exact_mod_cast hr) (two_zpow_pos _).le
  have hbig : (2 : ℚ) ^ 1024 ≤ roundedValue x := by
    refine le_trans ?_ hle
    have := zpow_le_zpow_right₀ (a := (2 : ℚ)) (by norm_num) hlog
    rw [zpow_ofNat] at this
    exact this
  rw [roundToDouble_eq, if_pos hbig]

end Machine

namespace Machine

theorem roundToDouble_finite_eq (x r : ℚ) (h : roundToDouble x = .finite r) :
    r = roundedValue x := by
  rw [roundToDouble_eq] at h
  split_ifs at h
  injection h with h
  exact h.symm

/-- In the normal range the rounding error is at most `2^-53` relative to the exact
result. -/
theorem roundToDouble_rel_error (x r : ℚ) (hx : 2 ^ (-1022 : ℤ) ≤ |x|)
    (h : roundToDouble x = .finite r) : |r - x| ≤ 2 ^ (-53 : ℤ) * |x| := by
  have hx0 : x ≠ 0 := by
    intro h0
    rw [h0, abs_zero] at hx
    exact absurd hx (not_le.mpr (two_zpow_pos _))
  have hlog : -1022 ≤ Int.log 2 |x| := le_log_of_le_abs x hx0 (-1022) hx
  have hq : quantum x = Int.log 2 |x| - 52 := by
    unfold quantum
    exact max_eq_left (by omega)
  rw [roundToDouble_finite_eq x r h]
  unfold roundedValue
  rw [hq]
  set t : ℤ := Int.log 2 |x| - 52 with ht
  have hsplit : ((roundHalfEven (x / 2 ^ t) : ℚ)) * 2 ^ t - x
      = ((roundHalfEven (x / 2 ^ t) : ℚ) - x / 2 ^ t) * 2 ^ t := by
    field_simp
  rw [hsplit, abs_mul, abs_of_pos (two_zpow_pos t)]
  have hhalf := abs_roundHalfEven_sub_le (x / 2 ^ t)
  have hpow : (1 / 2 : ℚ) * 2 ^ t = 2 ^ (-53 : ℤ) * 2 ^ Int.log 2 |x| := by
    rw [← zpow_add₀ (by norm_num), show (1 / 2 : ℚ) = 2 ^ (-1 : ℤ) by norm_num,
      ← zpow_add₀ (by norm_num)]
    congr 1
    rw [ht]
    ring
  calc |(roundHalfEven (x / 2 ^ t) : ℚ) - x / 2 ^ t| * 2 ^ t
      ≤ 1 / 2 * 2 ^ t := mul_le_mul_of_nonneg_right hhalf (two_zpow_pos t).le
    _ = 2 ^ (-53 : ℤ) * 2 ^ Int.log 2 |x| := hpow
    _ ≤ 2 ^ (-53 : ℤ) * |x| :=
        mul_le_mul_of_nonneg_left (two_zpow_log_le x hx0) (two_zpow_pos _).le

/-! ## `divide` and `exponent` on doubles -/

theorem divide_zero_double (a : Double) :
    divide a (.finite 0) = .done (.finite 0) [Event.divisionByZero] := by
  unfold divide
  rw [if_pos (by simp [Double.eq])]
  exact emit_bind_done _ _ _ _ rfl

theorem divide_of_ne_zero_double (a b : Double) (hb : b ≠ .finite 0) :
    divide a b = .done (Double.div a b) [] := by
  have h : Double.eq b (.finite 0) = false := by
    cases b with
    | finite q =>
      have : q ≠ 0 := fun h0 => hb (by rw [h0])
      simp [Double.eq, this]
    | posInf => rfl
    | negInf => rfl
    | nan => rfl
  unfold divide
  rw [h]
  rfl

theorem divide_finite_double (a b : ℚ) (hb : b ≠ 0) :
    divide (.finite a) (.finite b) = .done (roundToDouble (a / b)) [] := by
  rw [divide_of_ne_zero_double _ _ (fun h => hb (by injection h))]
  simp [Double.div, hb]

theorem toInt_natCast_double (n : ℕ) (hn : n < 2 ^ 31) :
    toInt (.finite (n : ℚ)) = .done (n : ℤ) [] :=
  Calculator.toInt_natCast n hn

/-- For a natural exponent below `2^31`, `exponent` returns the product of the loop. -/
theorem exponent_natCast_double (base : Double) (n : ℕ) (hn : n < 2 ^ 31) :
    exponent base (.finite (n : ℚ)) = .done (exponentLoop base n (.finite 1)) [] := by
  have hneg : Double.lt (.finite (n : ℚ)) (.finite 0) = false := by
    simp [Double.lt]
  have hpos : (if Double.lt (.finite 0) (.finite (n : ℚ)) = true then Double.finite (n : ℚ)
      else Double.neg (.finite (n : ℚ))) = .finite (n : ℚ) := by
    rcases Nat.eq_zero_or_pos n with h | h
    · subst h
      simp [Double.lt, Double.neg]
    · have : (0 : ℚ) < n := by exact_mod_cast h
      simp [Double.lt, this]
  unfold exponent
  simp only [hpos, toInt_natCast_double n hn, done_nil_bind, hneg, Int.toNat_ofNat]
  rfl

/-- For a negative integer exponent above `-2^31`, `exponent` returns what `divide`
returns on 1 and the product of the loop. -/
theorem exponent_neg_natCast_double (base : Double) (n : ℕ) (hpos : 0 < n) (hn : n < 2 ^ 31) :
    exponent base (.finite (-(n : ℚ))) = divide (.finite 1) (exponentLoop base n (.finite 1)) := by
  have hn0 : (0 : ℚ) < n := by exact_mod_cast hpos
  have hneg : Double.lt (.finite (-(n : ℚ))) (.finite 0) = true := by
    simp [Double.lt, hn0]
  have hmag : (if Double.lt (.finite 0) (.finite (-(n : ℚ))) = true
      then Double.finite (-(n : ℚ)) else Double.neg (.finite (-(n : ℚ))))
      = .finite (n : ℚ) := by
    have : ¬ ((0 : ℚ) < -(n : ℚ)) := by linarith
    simp [Double.lt, Double.neg, this]
  unfold exponent
  simp only [hmag, toInt_natCast_double n hn, done_nil_bind, hneg, Int.toNat_ofNat, if_true]

end Machine

namespace Machine

/-! ## `squareRoot` on doubles -/

end Machine

namespace Machine

/-! ## Runs on doubles at particular operands -/

theorem roundToDouble_intCast (m : ℤ) (hm : |m| < 2 ^ 53) :
    roundToDouble (m : ℚ) = .finite (m : ℚ) := by
  have hmax : |(m : ℚ) * 2 ^ (0 : ℤ)| < 2 ^ 1024 := by
    rw [zpow_zero, mul_one]
    have h1 : |(m : ℚ)| < 2 ^ 53 := by exact_mod_cast hm
    exact lt_of_lt_of_le h1 (pow_le_pow_right₀ (by norm_num) (by norm_num))
  have h := roundToDouble_of_representable m 0 hm (by norm_num) hmax
  rw [zpow_zero, mul_one] at h
  exact h

theorem roundToDouble_two_zpow (e : ℤ) (hlo : -1074 ≤ e) (hhi : e < 1024) :
    roundToDouble (2 ^ e) = .finite (2 ^ e) := by
  have hmax : |((1 : ℤ) : ℚ) * 2 ^ e| < 2 ^ 1024 := by
    rw [Int.cast_one, one_mul, abs_of_pos (two_zpow_pos e), ← zpow_ofNat]
    exact zpow_lt_zpow_right₀ (by norm_num) hhi
  have h := roundToDouble_of_representable 1 e (by norm_num) hlo hmax
  rw [Int.cast_one, one_mul] at h
  exact h

theorem multiply_finite (a b : ℚ) :
    multiply (.finite a) (.finite b) = roundToDouble (a * b) := rfl

theorem exponentLoop_two (base result : Double) :
    exponentLoop base 2 result = multiply (multiply result base) base := rfl

/-- On doubles the square of `2^-600` underflows to 0. -/
theorem exponentLoop_underflow :
    exponentLoop (.finite (2 ^ (-600 : ℤ))) 2 (.finite 1) = .finite 0 := by
  have h1 : multiply (.finite 1) (.finite (2 ^ (-600 : ℤ))) = .finite (2 ^ (-600 : ℤ)) := by
    rw [multiply_finite, one_mul]
    exact roundToDouble_two_zpow _ (by norm_num) (by norm_num)
  have h2 : multiply (.finite (2 ^ (-600 : ℤ))) (.finite (2 ^ (-600 : ℤ))) = .finite 0 := by
    rw [multiply_finite]
    apply roundToDouble_of_tiny
    rw [← zpow_add₀ (by norm_num), abs_of_pos (two_zpow_pos _)]
    exact zpow_le_zpow_right₀ (by norm_num) (by norm_num)
  rw [exponentLoop_two, h1, h2]

theorem exponentLoop_two_two : exponentLoop (.finite 2) 2 (.finite 1) = .finite 4 := by
  have h1 : multiply (.finite 1) (.finite 2) = .finite 2 := by
    rw [multiply_finite, one_mul]
    exact_mod_cast roundToDouble_intCast 2 (by norm_num)
  have h2 : multiply (.finite 2) (.finite 2) = .finite 4 := by
    rw [multiply_finite, show (2 : ℚ) * 2 = ((4 : ℤ) : ℚ) by norm_num]
    exact_mod_cast roundToDouble_intCast 4 (by norm_num)
  rw [exponentLoop_two, h1, h2]

theorem exponent_two_neg_two : exponent (.finite 2) (.finite (-2)) = .done (.finite 0.25) [] := by
  have h := exponent_neg_natCast_double (.finite 2) 2 (by norm_num) (by norm_num)
  simp only [Nat.cast_ofNat] at h
  rw [h, exponentLoop_two_two, divide_finite_double 1 4 (by norm_num),
    show (1 : ℚ) / 4 = 2 ^ (-2 : ℤ) by norm_num, show (0.25 : ℚ) = 2 ^ (-2 : ℤ) by norm_num]
  rw [roundToDouble_two_zpow _ (by norm_num) (by norm_num)]

/-- On doubles `2^1023 / 0.5` overflows to `+∞`, and so does its product with `0.5`. -/
theorem divide_overflow :
    divide (.finite (2 ^ 1023)) (.finite (1 / 2)) = .done .posInf [] ∧
    multiply .posInf (.finite (1 / 2)) = .posInf := by
  constructor
  · rw [divide_finite_double _ _ (by norm_num)]
    rw [roundToDouble_of_huge _ (by rw [div_div_eq_mul_div, div_one, ← pow_succ])]
  · simp [multiply, Double.mul, Double.infOfSign]

end Machine

/-! ## Exact-arithmetic facts behind C3, C9 and C16 -/

/-- Over exact arithmetic the positive power of a non-zero base is not 0, and the
negative power is its reciprocal, without report. -/
theorem exponent_negative_exact (base : ℚ) (n : ℕ) (hbase : base ≠ 0) (hpos : 0 < n)
    (hn : n < 2 ^ 31) :
    ∃ p : ℚ, exponent base (n : ℚ) = .done p [] ∧ p ≠ 0 ∧
      exponent base (-(n : ℚ)) = .done (1 / p) [] := by
  refine ⟨base ^ n, exponent_natCast base n hn, pow_ne_zero n hbase, ?_⟩
  rw [exponent_neg_natCast base n hpos hn, divide_ne_zero 1 (pow_ne_zero n hbase)]

theorem exponent_two_neg_two_exact : exponent 2 (-2) = .done 0.25 [] := by
  have h := exponent_neg_natCast 2 2 (by norm_num) (by norm_num)
  rw [divide_ne_zero 1 (by norm_num)] at h
  norm_num at h ⊢
  exact h

/-- Over exact arithmetic the quotient times the divisor is the dividend. -/
theorem divide_multiply_exact (a b : ℚ) (hb : b ≠ 0) :
    ∃ q : ℚ, divide a b = .done q [] ∧ multiply q b = a :=
  ⟨a / b, divide_ne_zero a hb, by unfold multiply; field_simp⟩

namespace Machine

/-- On doubles, in the normal range, dividing and multiplying back moves a number by at
most `2^-51` of its magnitude. -/
theorem divide_multiply_rel_error (a b q p : ℚ) (hb : b ≠ 0)
    (hquot : 2 ^ (-1022 : ℤ) ≤ |a / b|)
    (hq : divide (.finite a) (.finite b) = .done (.finite q) [])
    (hprod : 2 ^ (-1022 : ℤ) ≤ |q * b|)
    (hp : multiply (.finite q) (.finite b) = .finite p) :
    |p - a| ≤ 2 ^ (-51 : ℤ) * |a| := by
  rw [divide_finite_double a b hb] at hq
  injection hq with hq _
  have e1 := roundToDouble_rel_error (a / b) q hquot hq
  rw [multiply_finite] at hp
  have e2 := roundToDouble_rel_error (q * b) p hprod hp
  have hbpos : 0 < |b| := abs_pos.mpr hb
  have hu : (2 : ℚ) ^ (-53 : ℤ) = 1 / 2 ^ 53 := by
    rw [zpow_neg, zpow_ofNat, one_div]
  have hu' : (2 : ℚ) ^ (-51 : ℤ) = 1 / 2 ^ 51 := by
    rw [zpow_neg, zpow_ofNat, one_div]
  rw [hu] at e1 e2
  rw [hu']
  have e1' : |q * b - a| ≤ 1 / 2 ^ 53 * |a| := by
    have h : q * b - a = (q - a / b) * b := by field_simp
    rw [h, abs_mul]
    have h2 : |a / b| * |b| = |a| := by rw [← abs_mul]; congr 1; field_simp
    calc |q - a / b| * |b| ≤ 1 / 2 ^ 53 * |a / b| * |b| :=
          mul_le_mul_of_nonneg_right e1 hbpos.le
      _ = 1 / 2 ^ 53 * |a| := by rw [mul_assoc, h2]
  have hqb : |q * b| ≤ |a| + 1 / 2 ^ 53 * |a| := by
    have := abs_sub_abs_le_abs_sub (q * b) a
    linarith
  have htri : |p - a| ≤ |p - q * b| + |q * b - a| := by
    have := abs_add (p - q * b) (q * b - a)
    simpa using this
  have ha : 0 ≤ |a| := abs_nonneg a
  have hstep : |p - q * b| ≤ 1 / 2 ^ 53 * (|a| + 1 / 2 ^ 53 * |a|) :=
    le_trans e2 (mul_le_mul_of_nonneg_left hqb (by norm_num))
  nlinarith

end Machine

/-! ## Claims -/

/-- C1: `divide(a, b)` returns the quotient `a / b`, without any report, when `b` is
not 0; when `b` is 0 it reports the division by zero and returns the sentinel 0. -/
theorem divide_quotient_or_sentinel (a b : ℚ) :
    (b ≠ 0 → divide a b = .done (a / b) []) ∧
    (b = 0 → divide a b = .done 0 [Event.divisionByZero]) := by
  refine ⟨fun hb => divide_ne_zero a hb, fun hb => ?_⟩
  subst hb
  exact divide_zero a

/-- Witness for C1 at the operands `(6, 3)` and `(6, 0)`. -/
theorem divide_quotient_or_sentinel_witness :
    divide 6 3 = .done (6 / 3) [] ∧ divide 6 0 = .done 0 [Event.divisionByZero] :=
  ⟨(divide_quotient_or_sentinel 6 3).1 (by norm_num),
   (divide_quotient_or_sentinel 6 0).2 rfl⟩

/-- C2: for every base and every natural exponent `n < 2^31`, `exponent(base, n)`
returns `base ^ n` (so `exponent(base, 0) = 1`, also for base 0), and
`exponent(2, 10) = 1024`. -/
theorem exponent_nonneg_integer (base : ℚ) (n : ℕ) (hn : n < 2 ^ 31) :
    exponent base (n : ℚ) = .done (base ^ n) [] ∧
    exponent base 0 = .done 1 [] ∧
    exponent 0 0 = .done 1 [] ∧
    exponent 2 10 = .done 1024 [] := by
  refine ⟨exponent_natCast base n hn, ?_, ?_, ?_⟩
  · simpa using exponent_natCast base 0 (by norm_num)
  · simpa using exponent_natCast 0 0 (by norm_num)
  · have h := exponent_natCast 2 10 (by norm_num)
    norm_num at h
    exact h

/-- Witness for C2 at base `3/2` and exponent 4. -/
theorem exponent_nonneg_integer_witness :
    (4 : ℕ) < 2 ^ 31 ∧ exponent (3 / 2) ((4 : ℕ) : ℚ) = .done ((3 / 2) ^ 4) [] :=
  ⟨by norm_num, (exponent_nonneg_integer (3 / 2) 4 (by norm_num)).1⟩

/-- C3 (as amended): for every base and every integer `n` with `0 < n < 2^31`,
`exponent(base, -n)` is what `divide(1, p)` returns on the power `p = exponent(base, n)`:
the reciprocal `1/p` (rounded, on doubles) without report when `p` is not 0, and the
sentinel 0 with the division report when `p` is 0.  Over exact arithmetic `p` is not 0
for a base other than 0.  `exponent(2, -2) = 0.25`, on doubles and exactly. -/
theorem exponent_negative_divides_one_by_power (n : ℕ) (hpos : 0 < n) (hn : n < 2 ^ 31) :
    (∀ base : Machine.Double, ∃ p : Machine.Double,
      Machine.exponent base (.finite (n : ℚ)) = .done p [] ∧
      (p ≠ .finite 0 → Machine.exponent base (.finite (-(n : ℚ)))
        = .done (Machine.Double.div (.finite 1) p) []) ∧
      (p = .finite 0 → Machine.exponent base (.finite (-(n : ℚ)))
        = .done (.finite 0) [Event.divisionByZero]) ∧
      (∀ q : ℚ, q ≠ 0 → p = .finite q →
        Machine.Double.div (.finite 1) p = Machine.roundToDouble (1 / q))) ∧
    (∀ base : ℚ, base ≠ 0 → ∃ p : ℚ, exponent base (n : ℚ) = .done p [] ∧ p ≠ 0 ∧
      exponent base (-(n : ℚ)) = .done (1 / p) []) ∧
    Machine.exponent (.finite 2) (.finite (-2)) = .done (.finite 0.25) [] ∧
    exponent 2 (-2) = .done 0.25 [] := by
  refine ⟨fun base => ⟨Machine.exponentLoop base n (.finite 1),
      Machine.exponent_natCast_double base n hn, fun hp => ?_, fun hp => ?_, fun q hq hp => ?_⟩,
    fun base hbase => exponent_negative_exact base n hbase hpos hn,
    Machine.exponent_two_neg_two, exponent_two_neg_two_exact⟩
  · rw [Machine.exponent_neg_natCast_double base n hpos hn,
      Machine.divide_of_ne_zero_double _ _ hp]
  · rw [Machine.exponent_neg_natCast_double base n hpos hn, hp]
    exact Machine.divide_zero_double _
  · rw [hp]
    simp [Machine.Double.div, hq]

/-- Witness for C3 (as amended) at `n = 3`, read at the bases 5 (doubles) and 5
(exact). -/
theorem exponent_negative_divides_one_by_power_witness :
    0 < 3 ∧ 3 < 2 ^ 31 ∧
    (∃ p : Machine.Double,
      Machine.exponent (.finite 5) (.finite ((3 : ℕ) : ℚ)) = .done p [] ∧
      (p ≠ .finite 0 → Machine.exponent (.finite 5) (.finite (-((3 : ℕ) : ℚ)))
        = .done (Machine.Double.div (.finite 1) p) []) ∧
      (p = .finite 0 → Machine.exponent (.finite 5) (.finite (-((3 : ℕ) : ℚ)))
        = .done (.finite 0) [Event.divisionByZero]) ∧
      (∀ q : ℚ, q ≠ 0 → p = .finite q →
        Machine.Double.div (.finite 1) p = Machine.roundToDouble (1 / q))) ∧
    (∃ p : ℚ, exponent 5 ((3 : ℕ) : ℚ) = .done p [] ∧ p ≠ 0 ∧
      exponent 5 (-((3 : ℕ) : ℚ)) = .done (1 / p) []) :=
  ⟨by norm_num, by norm_num,
   (exponent_negative_divides_one_by_power 3 (by norm_num) (by norm_num)).1 (.finite 5),
   (exponent_negative_divides_one_by_power 3 (by norm_num) (by norm_num)).2.1 5
     (by norm_num)⟩

/-- C3 (as stated) fails on doubles at the base `2^-600` and `n = 2`: the base is not
0, but its square underflows to 0, so `exponent(base, 2)` is 0 and `exponent(base, -2)`
reports a division by zero and returns 0, which is not the reciprocal of a non-zero
power. -/
theorem exponent_negative_power_underflows :
    (2 : ℚ) ^ (-600 : ℤ) ≠ 0 ∧
    Machine.exponent (.finite (2 ^ (-600 : ℤ))) (.finite 2) = .done (.finite 0) [] ∧
    Machine.exponent (.finite (2 ^ (-600 : ℤ))) (.finite (-2))
      = .done (.finite 0) [Event.divisionByZero] ∧
    ¬ ∃ p : Machine.Double,
      Machine.exponent (.finite (2 ^ (-600 : ℤ))) (.finite 2) = .done p [] ∧
      p ≠ .finite 0 ∧
      Machine.exponent (.finite (2 ^ (-600 : ℤ))) (.finite (-2))
        = .done (Machine.Double.div (.finite 1) p) [] := by
  have h1 : Machine.exponent (.finite (2 ^ (-600 : ℤ))) (.finite 2)
      = .done (.finite 0) [] := by
    have h := Machine.exponent_natCast_double (.finite (2 ^ (-600 : ℤ))) 2 (by norm_num)
    simp only [Nat.cast_ofNat] at h
    rw [h, Machine.exponentLoop_underflow]
  have h2 : Machine.exponent (.finite (2 ^ (-600 : ℤ))) (.finite (-2))
      = .done (.finite 0) [Event.divisionByZero] := by
    have h := Machine.exponent_neg_natCast_double (.finite (2 ^ (-600 : ℤ))) 2 (by norm_num)
      (by norm_num)
    simp only [Nat.cast_ofNat] at h
    rw [h, Machine.exponentLoop_underflow]
    exact Machine.divide_zero_double _
  refine ⟨(Machine.two_zpow_pos _).ne', h1, h2, ?_⟩
  rintro ⟨p, hp, hne, _⟩
  rw [h1] at hp
  injection hp with hp _
  exact hne hp.symm

/-- C4: for every `num < 0`, `squareRoot(num)` reports the negative operand and
returns the sentinel -1; nothing else happens, in particular no pass through the
loop; and `squareRoot(-1) = -1`. -/
theorem squareRoot_negative (num : ℚ) (hnum : num < 0) :
    squareRoot num = .done (-1) [Event.negativeSquareRoot] ∧
    squareRoot (-1) = .done (-1) [Event.negativeSquareRoot] := by
  have key : ∀ x : ℚ, x < 0 → squareRoot x = .done (-1) [Event.negativeSquareRoot] := by
    intro x hx
    unfold squareRoot
    rw [if_pos hx]
    exact emit_bind_done _ _ _ _ rfl
  exact ⟨key num hnum, key (-1) (by norm_num)⟩

/-- Witness for C4 at `num = -9/4`. -/
theorem squareRoot_negative_witness :
    (-9 / 4 : ℚ) < 0 ∧ squareRoot (-9 / 4) = .done (-1) [Event.negativeSquareRoot] :=
  ⟨by norm_num, (squareRoot_negative (-9 / 4) (by norm_num)).1⟩

/-- C5: `squareRoot(4)` is within 1e-6 of 2.0 and `squareRoot(2)` is within 1e-6 of
1.41421356; each value is reached after at most 1000 passes of the Babylonian update
from the seed `num / 2`, and nothing is reported. -/
theorem squareRoot_four_and_two_accurate :
    (∃ k, k ≤ 1000 ∧ ∃ v : ℚ, squareRoot 4 = .done v (List.replicate k Event.iteration) ∧
      v = (babylonianUpdate 4)^[k] (4 / 2) ∧ |v - 2.0| ≤ 1e-6) ∧
    (∃ k, k ≤ 1000 ∧ ∃ v : ℚ, squareRoot 2 = .done v (List.replicate k Event.iteration) ∧
      v = (babylonianUpdate 2)^[k] (2 / 2) ∧ |v - 1.41421356| ≤ 1e-6) := by
  refine ⟨⟨1, by norm_num, 2, squareRoot_four, ?_, by norm_num⟩, squareRoot_two_run⟩
  norm_num [babylonianUpdate]

/-- C6: for every `num < 0` and every even integer degree within the range of `int`,
`nthRoot` reports the even root of a negative number and returns the sentinel -1;
nothing else happens, in particular no pass through the loop; and
`nthRoot(-8, 2) = -1`. -/
theorem nthRoot_negative_even (num : ℚ) (n : ℤ) (hnum : num < 0) (heven : Even n)
    (hlo : -(2 : ℤ) ^ 31 ≤ n) (hhi : n < (2 : ℤ) ^ 31) :
    nthRoot num (n : ℚ) = .done (-1) [Event.negativeEvenRoot] ∧
    nthRoot (-8) 2 = .done (-1) [Event.negativeEvenRoot] := by
  refine ⟨nthRoot_of_even num n hnum hlo hhi
    (Int.tmod_eq_zero_of_dvd (even_iff_two_dvd.mp heven)), ?_⟩
  have h := nthRoot_of_even (-8) 2 (by norm_num) (by norm_num) (by norm_num) (by decide)
  simp only [Int.cast_ofNat] at h
  exact h

/-- Witness for C6 at `num = -5/2` and degree `-4`. -/
theorem nthRoot_negative_even_witness :
    (-5 / 2 : ℚ) < 0 ∧ Even (-4 : ℤ) ∧
    nthRoot (-5 / 2) ((-4 : ℤ) : ℚ) = .done (-1) [Event.negativeEvenRoot] :=
  ⟨by norm_num, by decide,
   (nthRoot_negative_even (-5 / 2) (-4) (by norm_num) (by decide) (by norm_num)
      (by norm_num)).1⟩

/-- C7: `nthRoot(27, 3)` is within 1e-6 of 3.0 and `nthRoot(16, 4)` is within 1e-6 of
2.0; each value is reached after at most 1000 passes of the Newton update
`((n-1)*guess + num/guess^(n-1))/n` from the seed `num / 2`, and nothing is reported. -/
theorem nthRoot_cube_and_fourth_accurate :
    (∃ k, k ≤ 1000 ∧ ∃ v : ℚ, nthRoot 27 3 = .done v (List.replicate k Event.iteration) ∧
      v = (newtonUpdate 27 3)^[k] (27 / 2) ∧ |v - 3.0| ≤ 1e-6) ∧
    (∃ k, k ≤ 1000 ∧ ∃ v : ℚ, nthRoot 16 4 = .done v (List.replicate k Event.iteration) ∧
      v = (newtonUpdate 16 4)^[k] (16 / 2) ∧ |v - 2.0| ≤ 1e-6) := by
  constructor
  · obtain ⟨k, hk, hrun, hlow, hup⟩ := nthRoot_27_3_run
    refine ⟨k, hk, _, hrun, rfl, ?_⟩
    have hsmall : (2 / 3 : ℚ) ^ 1000 * (27 / 2 - 3) ≤ 1e-6 := by norm_num
    rw [abs_le]
    constructor
    · norm_num
      linarith
    · norm_num at hsmall ⊢
      linarith
  · obtain ⟨k, hk, hrun, hlow, hup⟩ := nthRoot_16_4_run
    refine ⟨k, hk, _, hrun, rfl, ?_⟩
    have hsmall : (3 / 4 : ℚ) ^ 1000 * (16 / 2 - 2) ≤ 1e-6 := by norm_num
    rw [abs_le]
    constructor
    · norm_num
      linarith
    · norm_num at hsmall ⊢
      linarith

/-- C8: `nthRoot(-8, 3)` does not take the error branch (the even-root diagnostic is
not among its events, which are loop passes only) and returns a value within 1e-6
of -2.0. -/
theorem nthRoot_neg8_cube_accurate :
    ∃ k, k ≤ 1000 ∧ ∃ v : ℚ, ∃ es : List Event, nthRoot (-8) 3 = .done v es ∧
      es = List.replicate k Event.iteration ∧ Event.negativeEvenRoot ∉ es ∧
      |v - (-2.0)| ≤ 1e-6 := by
  obtain ⟨k, hk, hrun, hlow, hup⟩ := nthRoot_neg8_3_run
  refine ⟨k, hk, _, _, hrun, rfl, ?_, ?_⟩
  · intro hmem
    have := List.eq_of_mem_replicate hmem
    exact absurd this (by decide)
  · have hsmall : (2 / 3 : ℚ) ^ 1000 * (-2 - -8 / 2) ≤ 1e-6 := by norm_num
    rw [abs_le]
    constructor
    · norm_num at hsmall ⊢
      linarith
    · norm_num
      linarith

/-- C9 (as amended): for every finite `a` and every finite `b` other than 0,
`divide(a, b)` returns the quotient without report.  Over exact arithmetic it is `a / b`
and its product with `b` is `a`.  On doubles it is the correctly rounded quotient, and
when the quotient and its product with `b` are finite and of magnitude at least
`2^-1022` (no overflow, no underflow) the product is within `2^-51 * |a|` of `a`. -/
theorem divide_times_divisor_within_tolerance (a b : ℚ) (hb : b ≠ 0) :
    (∃ q : ℚ, divide a b = .done q [] ∧ multiply q b = a) ∧
    Machine.divide (.finite a) (.finite b) = .done (Machine.roundToDouble (a / b)) [] ∧
    (∀ q p : ℚ, 2 ^ (-1022 : ℤ) ≤ |a / b| →
      Machine.divide (.finite a) (.finite b) = .done (.finite q) [] →
      2 ^ (-1022 : ℤ) ≤ |q * b| →
      Machine.multiply (.finite q) (.finite b) = .finite p →
      |p - a| ≤ 2 ^ (-51 : ℤ) * |a|) :=
  ⟨divide_multiply_exact a b hb, Machine.divide_finite_double a b hb,
   fun q p hquot hq hprod hp => Machine.divide_multiply_rel_error a b q p hb hquot hq hprod hp⟩

/-- Witness for C9 (as amended) at the operands `(6, 3)`: on doubles the quotient is 2,
its product with 3 is 6, and the bound holds with error 0. -/
theorem divide_times_divisor_within_tolerance_witness :
    (3 : ℚ) ≠ 0 ∧
    Machine.divide (.finite 6) (.finite 3) = .done (.finite 2) [] ∧
    Machine.multiply (.finite 2) (.finite 3) = .finite 6 ∧
    |(6 : ℚ) - 6| ≤ 2 ^ (-51 : ℤ) * |(6 : ℚ)| ∧
    ∃ q : ℚ, divide 6 3 = .done q [] ∧ multiply q 3 = 6 := by
  have h := divide_times_divisor_within_tolerance 6 3 (by norm_num)
  have hq : Machine.divide (.finite 6) (.finite 3) = .done (.finite 2) [] := by
    rw [h.2.1, show (6 : ℚ) / 3 = ((2 : ℤ) : ℚ) by norm_num,
      Machine.roundToDouble_intCast 2 (by norm_num)]
    norm_num
  have hp : Machine.multiply (.finite 2) (.finite 3) = .finite 6 := by
    rw [Machine.multiply_finite, show (2 : ℚ) * 3 = ((6 : ℤ) : ℚ) by norm_num,
      Machine.roundToDouble_intCast 6 (by norm_num)]
    norm_num
  have hlow : (2 : ℚ) ^ (-1022 : ℤ) ≤ 2 :=
    le_trans (zpow_le_zpow_right₀ (by norm_num) (by norm_num : (-1022 : ℤ) ≤ 1))
      (by norm_num)
  refine ⟨by norm_num, hq, hp, h.2.2 2 6 ?_ ?_ ?_ hp, h.1⟩
  · rw [show (6 : ℚ) / 3 = 2 by norm_num, abs_of_pos (by norm_num)]
    exact hlow
  · exact hq
  · rw [show (2 : ℚ) * 3 = 6 by norm_num, abs_of_pos (by norm_num)]
    linarith

/-- C9 (as stated) fails on doubles at the operands `2^1023` and `0.5`: the divisor is
not 0, but the quotient overflows to `+∞`, and `+∞` times `0.5` is `+∞`, not the finite
dividend. -/
theorem divide_quotient_overflows :
    (1 / 2 : ℚ) ≠ 0 ∧
    Machine.divide (.finite (2 ^ 1023)) (.finite (1 / 2)) = .done .posInf [] ∧
    Machine.multiply .posInf (.finite (1 / 2)) = .posInf ∧
    Machine.Double.posInf ≠ .finite (2 ^ 1023) :=
  ⟨by norm_num, Machine.divide_overflow.1, Machine.divide_overflow.2,
   fun h => Machine.Double.noConfusion h⟩

/-- C10 (as amended): for menu choice 5, when the truncations toward zero of both
operands fit a 32-bit `int` and the truncated divisor is not 0, `main` prints the
remainder of the truncated operands, so replacing the operands by their truncations
does not change the run; `modulus(10, 3)` gives 1 and so do the operands 10.9 and
3.9. -/
theorem main_modulus_truncated (a b : ℚ) (halo : -(2 : ℤ) ^ 31 ≤ truncate a)
    (hahi : truncate a < (2 : ℤ) ^ 31) (hblo : -(2 : ℤ) ^ 31 ≤ truncate b)
    (hbhi : truncate b < (2 : ℤ) ^ 31) (hb0 : truncate b ≠ 0) :
    main 5 a b = .done 0 [Event.result ((Int.tmod (truncate a) (truncate b) : ℤ) : ℚ)] ∧
    main 5 a b = main 5 ((truncate a : ℤ) : ℚ) ((truncate b : ℤ) : ℚ) ∧
    main 5 10 3 = .done 0 [Event.result 1] ∧
    main 5 10.9 3.9 = .done 0 [Event.result 1] := by
  refine ⟨main_five_of_range a b halo hahi hblo hbhi hb0, ?_, ?_, ?_⟩
  · rw [main_five_of_range a b halo hahi hblo hbhi hb0,
      main_five_of_range _ _ (by rw [truncate_truncate]; exact halo)
        (by rw [truncate_truncate]; exact hahi) (by rw [truncate_truncate]; exact hblo)
        (by rw [truncate_truncate]; exact hbhi) (by rw [truncate_truncate]; exact hb0),
      truncate_truncate, truncate_truncate]
  · rw [main_five_of_range 10 3 (by rw [truncate_ten]; norm_num)
      (by rw [truncate_ten]; norm_num) (by rw [truncate_three]; norm_num)
      (by rw [truncate_three]; norm_num) (by rw [truncate_three]; norm_num),
      truncate_ten, truncate_three, show Int.tmod 10 3 = 1 by decide]
    norm_num
  · rw [main_five_of_range 10.9 3.9 (by rw [truncate_ten_point_nine]; norm_num)
      (by rw [truncate_ten_point_nine]; norm_num)
      (by rw [truncate_three_point_nine]; norm_num)
      (by rw [truncate_three_point_nine]; norm_num)
      (by rw [truncate_three_point_nine]; norm_num),
      truncate_ten_point_nine, truncate_three_point_nine, show Int.tmod 10 3 = 1 by decide]
    norm_num

/-- Witness for C10 (as amended) at the operands `-7.5` and `2`: the result is
`-7 mod 2 = -1`. -/
theorem main_modulus_truncated_witness :
    truncate (-7.5) = -7 ∧ truncate 2 = 2 ∧
    main 5 (-7.5) 2 = .done 0 [Event.result (-1)] := by
  have ha : truncate (-7.5) = -7 := by
    unfold truncate
    rw [if_neg (by norm_num), Int.ceil_eq_iff]
    norm_num
  have hb : truncate 2 = 2 := truncate_of_nonneg 2 2 (by norm_num) (by norm_num) (by norm_num)
  refine ⟨ha, hb, ?_⟩
  have h := (main_modulus_truncated (-7.5) 2 (by rw [ha]; norm_num) (by rw [ha]; norm_num)
    (by rw [hb]; norm_num) (by rw [hb]; norm_num) (by rw [hb]; norm_num)).1
  rw [ha, hb, show Int.tmod (-7) 2 = -1 by decide] at h
  rw [h]
  norm_num

/-- C10 (as stated) fails at the operands `2147483648` and `3`: the truncated divisor
is not 0, but the first operand does not fit a 32-bit `int`, so its conversion has no
defined value and no remainder of the truncated operands is printed. -/
theorem main_modulus_out_of_range :
    truncate 3 ≠ 0 ∧ main 5 2147483648 3 = .undefined ∧
    main 5 2147483648 3 ≠
      .done 0 [Event.result ((Int.tmod (truncate 2147483648) (truncate 3) : ℤ) : ℚ)] := by
  have h : main 5 2147483648 3 = .undefined :=
    main_five_of_large 2147483648 3 (by rw [truncate_two_pow_31]; norm_num)
  refine ⟨by rw [truncate_three]; norm_num, h, ?_⟩
  rw [h]
  exact fun hcon => Calc.noConfusion hcon

/-- C11: for `num = 0` the seed is 0, the first pass divides `num` by that zero guess
(`divide` reports and yields 0), the iterate equals the guess, and `squareRoot(0)`
returns 0 after exactly one pass. -/
theorem squareRoot_zero_one_pass :
    (0 : ℚ) / 2 = 0 ∧
    divide 0 (0 / 2) = .done 0 [Event.divisionByZero] ∧
    squareRootStep 0 (0 / 2) = .done (0 / 2) [Event.divisionByZero] ∧
    squareRoot 0 = .done 0 [Event.iteration, Event.divisionByZero] ∧
    [Event.iteration, Event.divisionByZero].count Event.iteration = 1 := by
  have h0 : (0 : ℚ) / 2 = 0 := by norm_num
  refine ⟨h0, ?_, ?_, squareRoot_zero_run, by decide⟩
  · rw [h0]
    exact divide_zero 0
  · rw [h0, squareRootStep_eq]
    simp [squareRootStepValue, divideValue, divideEvents]

/-- C12: for degree 0 the last division of the Newton update has divisor 0, so
`divide` reports last and the update yields 0 whatever the guess; and for every
`num ≥ 0`, `nthRoot(num, 0)` returns 0 after one or two passes. -/
theorem nthRoot_degree_zero_returns_zero (num : ℚ) (hnum : 0 ≤ num) :
    (∀ g : ℚ, ∃ es, nthRootStep num 0 g = .done 0 (es ++ [Event.divisionByZero])) ∧
    ∃ es, nthRoot num 0 = .done 0 es ∧ 1 ≤ es.count Event.iteration ∧
      es.count Event.iteration ≤ 2 := by
  constructor
  · intro g
    refine ⟨divideEvents g ++ divideEvents (divideValue 1 g), ?_⟩
    rw [nthRootStep_zero, List.append_assoc]
  · rcases hnum.eq_or_lt with h | h
    · subst h
      exact ⟨_, nthRoot_zero_degree_at_zero, by decide, by decide⟩
    · exact ⟨_, nthRoot_zero_degree_of_pos num h, by decide, by decide⟩

/-- Witness for C12 at `num = 5`: two passes. -/
theorem nthRoot_degree_zero_returns_zero_witness :
    (0 : ℚ) ≤ 5 ∧ ∃ es, nthRoot 5 0 = .done 0 es ∧ 1 ≤ es.count Event.iteration ∧
      es.count Event.iteration ≤ 2 :=
  ⟨by norm_num, (nthRoot_degree_zero_returns_zero 5 (by norm_num)).2⟩

/-- C13: fractional exponents are truncated: for every base and every exponent with
`|exp| < 2^31`, `exponent(base, exp)` and `exponent(base, trunc(exp))` return the same
value with the same events; `exponent(4, 0.5) = 1` and `exponent(2, 2.9) = 4`. -/
theorem exponent_fraction_truncated (base exp : ℚ) (hlo : -(2 : ℚ) ^ 31 < exp)
    (hhi : exp < 2 ^ 31) :
    (∃ v es, exponent base exp = .done v es ∧
      exponent base ((truncate exp : ℤ) : ℚ) = .done v es) ∧
    exponent 4 0.5 = .done 1 [] ∧ exponent 2 2.9 = .done 4 [] := by
  refine ⟨exponent_truncate base exp hlo hhi, ?_, ?_⟩
  · have ht : truncate 0.5 = 0 :=
      truncate_of_nonneg 0.5 0 (by norm_num) (by norm_num) (by norm_num)
    rw [exponent_of_nonneg 4 0.5 (by norm_num) (by rw [ht]; norm_num), ht,
      show Int.toNat 0 = 0 by decide]
    norm_num
  · have ht : truncate 2.9 = 2 :=
      truncate_of_nonneg 2.9 2 (by norm_num) (by norm_num) (by norm_num)
    rw [exponent_of_nonneg 2 2.9 (by norm_num) (by rw [ht]; norm_num), ht,
      show Int.toNat 2 = 2 by decide]
    norm_num

/-- Witness for C13 at base 3 and exponent `-2.5`, which runs as exponent `-2`. -/
theorem exponent_fraction_truncated_witness :
    -(2 : ℚ) ^ 31 < -2.5 ∧ (-2.5 : ℚ) < 2 ^ 31 ∧
    ∃ v es, exponent 3 (-2.5) = .done v es ∧
      exponent 3 ((truncate (-2.5) : ℤ) : ℚ) = .done v es :=
  ⟨by norm_num, by norm_num,
   (exponent_fraction_truncated 3 (-2.5) (by norm_num) (by norm_num)).1⟩

/-- C14: for every `num ≥ 0`, `squareRoot(num)` returns `x_k` of the sequence
`x_0 = num/2`, `x_(i+1) = divide(x_i + divide(num, x_i), 2)`, after exactly `k` passes,
where `k` is the least index in `1..1000` with `x_k = x_(k-1)`, or 1000 if there is
none: the loop ends within 1000 passes and returns the last computed iterate. -/
theorem squareRoot_least_repeat (num : ℚ) (hnum : 0 ≤ num) :
    ∃ k es, squareRoot num = .done (babylonianSequence num k) es ∧
      es.count Event.iteration = k ∧ 1 ≤ k ∧ k ≤ 1000 ∧
      (∀ j, 1 ≤ j → j < k → babylonianSequence num j ≠ babylonianSequence num (j - 1)) ∧
      (babylonianSequence num k = babylonianSequence num (k - 1) ∨ k = 1000) := by
  obtain ⟨k, es, hrun, hcount, hle, hpos, _, hneq, hlast⟩ :=
    rootLoop_trace (squareRootStep num) (squareRootStepValue num)
      (fun g => ⟨divideEvents g, squareRootStep_eq num g, divideEvents_only g⟩)
      (999 + 1) (num / 2)
  refine ⟨k, es, ?_, hcount, hpos (by norm_num), hle, ?_, ?_⟩
  · rw [squareRoot_of_not_neg num (not_lt.mpr hnum), babylonianSequence_eq_iterate]
    exact hrun
  · intro j h1 h2
    rw [babylonianSequence_eq_iterate, babylonianSequence_eq_iterate]
    exact hneq j h1 h2
  · rw [babylonianSequence_eq_iterate, babylonianSequence_eq_iterate]
    rcases hlast with h | ⟨_, h⟩
    · exact Or.inr h
    · exact Or.inl h

/-- Witness for C14 at `num = 4`: the first iterate repeats the seed, so `k = 1`. -/
theorem squareRoot_least_repeat_witness :
    (0 : ℚ) ≤ 4 ∧ ∃ k es, squareRoot 4 = .done (babylonianSequence 4 k) es ∧
      es.count Event.iteration = k ∧ 1 ≤ k ∧ k ≤ 1000 ∧
      (∀ j, 1 ≤ j → j < k → babylonianSequence 4 j ≠ babylonianSequence 4 (j - 1)) ∧
      (babylonianSequence 4 k = babylonianSequence 4 (k - 1) ∨ k = 1000) :=
  ⟨by norm_num, squareRoot_least_repeat 4 (by norm_num)⟩

/-- C15: for every `num`, `nthRoot(num, 2)` and `squareRoot(num)` both return, and
return the same value: for `num < 0` both report (each its own diagnostic) and
return -1; otherwise both run the same loop over the same update, with the same
events. -/
theorem nthRoot_two_eq_squareRoot (num : ℚ) :
    ∃ v es es', nthRoot num 2 = .done v es ∧ squareRoot num = .done v es' ∧
      (num < 0 → v = -1 ∧ es = [Event.negativeEvenRoot] ∧
        es' = [Event.negativeSquareRoot]) ∧
      (0 ≤ num → es = es') ∧
      nthRootStep num 2 = squareRootStep num := by
  by_cases hnum : num < 0
  · have h := nthRoot_of_even num 2 hnum (by norm_num) (by norm_num) (by decide)
    simp only [Int.cast_ofNat] at h
    have h' : squareRoot num = .done (-1) [Event.negativeSquareRoot] := by
      unfold squareRoot
      rw [if_pos hnum]
      exact emit_bind_done _ _ _ _ rfl
    exact ⟨-1, _, _, h, h', fun _ => ⟨rfl, rfl, rfl⟩, fun h0 => absurd hnum (not_lt.mpr h0),
      nthRootStep_two num⟩
  · obtain ⟨v, es, hrun⟩ := squareRoot_of_nonneg_done num (not_lt.mp hnum)
    refine ⟨v, es, es, ?_, hrun, fun h => absurd h hnum, fun _ => rfl, nthRootStep_two num⟩
    rw [nthRoot_of_nonneg num 2 hnum, nthRootStep_two, ← squareRoot_of_not_neg num hnum]
    exact hrun

/-- C17 (as amended): for every odd positive integer `n < 2^31` and every `x`, both
`nthRoot(x, n)` and `nthRoot(-x, n)` return, with opposite values and the same events,
which are loop passes and division reports only: the error branch is not taken. -/
theorem nthRoot_odd_mirror (n : ℕ) (hodd : Odd n) (hn : n < 2 ^ 31) (x : ℚ) :
    ∃ v es, nthRoot x (n : ℚ) = .done v es ∧ nthRoot (-x) (n : ℚ) = .done (-v) es ∧
      Event.negativeEvenRoot ∉ es := by
  obtain ⟨v, es, h1, h2, hev⟩ := nthRoot_mirror n hodd hn x
  refine ⟨v, es, h1, h2, fun hmem => ?_⟩
  rcases hev _ hmem with h | h
  · exact absurd h (by decide)
  · exact absurd h (by decide)

/-- Witness for C17 (as amended) at degree 3 and `x = 8`. -/
theorem nthRoot_odd_mirror_witness :
    Odd 3 ∧ 3 < 2 ^ 31 ∧
    ∃ v es, nthRoot 8 ((3 : ℕ) : ℚ) = .done v es ∧
      nthRoot (-8) ((3 : ℕ) : ℚ) = .done (-v) es ∧ Event.negativeEvenRoot ∉ es :=
  ⟨by decide, by norm_num, nthRoot_odd_mirror 3 (by decide) (by norm_num) 8⟩

/-- C17 (as stated) fails at the odd positive degree `2147483649` and `x = 8`: the
degree does not fit a 32-bit `int`, the conversion `(int)n` in the test of the error
branch has no defined value, and `nthRoot(-8, n)` returns nothing. -/
theorem nthRoot_odd_degree_out_of_range :
    Odd (2147483649 : ℕ) ∧ nthRoot (-8) 2147483649 = .undefined ∧
    ¬ ∃ v es, nthRoot 8 2147483649 = .done v es ∧
      nthRoot (-8) 2147483649 = .done (-v) es ∧ Event.negativeEvenRoot ∉ es := by
  refine ⟨by decide, nthRoot_neg_large_degree, ?_⟩
  rintro ⟨v, es, _, h, _⟩
  rw [nthRoot_neg_large_degree] at h
  exact Calc.noConfusion h

/-- C18: for every `num`, negative ones included, `nthRoot(num, 1)` returns `num`
itself after one or two passes, without any report; in particular
`nthRoot(-1, 1) = -1` is the result of two passes, not of the error branch. -/
theorem nthRoot_degree_one (num : ℚ) :
    (∃ k, 1 ≤ k ∧ k ≤ 2 ∧ nthRoot num 1 = .done num (List.replicate k Event.iteration)) ∧
    nthRoot (-1) 1 = .done (-1) [Event.iteration, Event.iteration] := by
  have key : ∀ x : ℚ, x ≠ 0 →
      nthRoot x 1 = .done x [Event.iteration, Event.iteration] := by
    intro x hx
    rw [nthRoot_one_eq]
    have hne : x ≠ x / 2 := by
      intro h
      apply hx
      linarith
    have hrest : rootLoop (nthRootStep x 1) (998 + 1) x = .done x [Event.iteration] :=
      rootLoop_break _ _ _ (nthRootStep_one x x)
    exact rootLoop_continue _ _ _ _ _ _ (nthRootStep_one x (x / 2)) hne hrest
  refine ⟨?_, key (-1) (by norm_num)⟩
  by_cases h0 : num = 0
  · subst h0
    refine ⟨1, by norm_num, by norm_num, ?_⟩
    rw [nthRoot_one_eq, show (0 : ℚ) / 2 = 0 by norm_num]
    exact rootLoop_break _ _ _ (nthRootStep_one 0 0)
  · exact ⟨2, by norm_num, by norm_num, key num h0⟩

/-- C19: for every `exp ≤ -1` with `|exp| < 2^31`, the zero power of `exponent(0, exp)`
is 0, its reciprocal goes through the zero-divisor branch of `divide`, and the
sentinel 0 is returned as the power, with the division report. -/
theorem exponent_zero_base_negative (exp : ℚ) (hexp : exp ≤ -1) (hlo : -(2 : ℚ) ^ 31 < exp) :
    exponent 0 exp = .done 0 [Event.divisionByZero] := by
  have hneg : exp < 0 := by linarith
  have ht : truncate (-exp) < (2 : ℤ) ^ 31 :=
    truncate_lt_of_lt (-exp) (by linarith) (by linarith)
  have h1 : 1 ≤ truncate (-exp) := by
    unfold truncate
    rw [if_pos (by linarith), Int.le_floor]
    push_cast
    linarith
  have hk : (truncate (-exp)).toNat ≠ 0 := by omega
  rw [exponent_of_neg 0 exp hneg ht, zero_pow hk]
  exact divide_zero 1

/-- Witness for C19 at `exp = -3/2`. -/
theorem exponent_zero_base_negative_witness :
    (-3 / 2 : ℚ) ≤ -1 ∧ -(2 : ℚ) ^ 31 < -3 / 2 ∧
    exponent 0 (-3 / 2) = .done 0 [Event.divisionByZero] :=
  ⟨by norm_num, by norm_num, exponent_zero_base_negative (-3 / 2) (by norm_num) (by norm_num)⟩

/-- C20: for every `num < 0` and every degree `n` whose truncation fits an `int`,
`nthRoot` takes its error branch (report, return -1, no pass) exactly when the
truncation of `n` toward zero is even, and enters the loop otherwise; so the degrees
2.5, 0 and every degree with `|n| < 1` are rejected, while 3.5 is not. -/
theorem nthRoot_negative_error_iff (num n : ℚ) (hnum : num < 0)
    (hlo : -(2 : ℤ) ^ 31 ≤ truncate n) (hhi : truncate n < (2 : ℤ) ^ 31) :
    (nthRoot num n = .done (-1) [Event.negativeEvenRoot] ↔ Even (truncate n)) ∧
    (¬ Even (truncate n) → nthRoot num n = rootLoop (nthRootStep num n) 1000 (num / 2)) ∧
    (∀ m : ℚ, |m| < 1 → nthRoot num m = .done (-1) [Event.negativeEvenRoot]) ∧
    nthRoot num 0 = .done (-1) [Event.negativeEvenRoot] ∧
    nthRoot num 2.5 = .done (-1) [Event.negativeEvenRoot] ∧
    nthRoot num 3.5 ≠ .done (-1) [Event.negativeEvenRoot] := by
  have hsmall : ∀ m : ℚ, |m| < 1 → nthRoot num m = .done (-1) [Event.negativeEvenRoot] := by
    intro m hm
    have ht := truncate_of_abs_lt_one m hm
    exact nthRoot_neg_of_even num m hnum (by rw [ht]; norm_num) (by rw [ht]; norm_num)
      (by rw [ht]; exact even_zero)
  have hloop : ∀ m : ℚ, -(2 : ℤ) ^ 31 ≤ truncate m → truncate m < (2 : ℤ) ^ 31 →
      ¬ Even (truncate m) → nthRoot num m ≠ .done (-1) [Event.negativeEvenRoot] := by
    intro m h1 h2 hodd hrun
    rw [nthRoot_neg_of_not_even num m hnum h1 h2 hodd] at hrun
    obtain ⟨es', hes⟩ := rootLoop_succ_events _ _ _ _ _ hrun
    injection hes with hhead _
    exact absurd hhead (by decide)
  refine ⟨⟨fun hrun => ?_, nthRoot_neg_of_even num n hnum hlo hhi⟩,
    nthRoot_neg_of_not_even num n hnum hlo hhi, hsmall, hsmall 0 (by norm_num), ?_, ?_⟩
  · by_contra hodd
    exact hloop n hlo hhi hodd hrun
  · have ht : truncate 2.5 = 2 :=
      truncate_of_nonneg 2.5 2 (by norm_num) (by norm_num) (by norm_num)
    exact nthRoot_neg_of_even num 2.5 hnum (by rw [ht]; norm_num) (by rw [ht]; norm_num)
      (by rw [ht]; decide)
  · have ht : truncate 3.5 = 3 :=
      truncate_of_nonneg 3.5 3 (by norm_num) (by norm_num) (by norm_num)
    exact hloop 3.5 (by rw [ht]; norm_num) (by rw [ht]; norm_num) (by rw [ht]; decide)

/-- Witness for C20 at `num = -8` and degree `-3.5`, which truncates to the odd `-3`. -/
theorem nthRoot_negative_error_iff_witness :
    (-8 : ℚ) < 0 ∧ truncate (-3.5) = -3 ∧
    (nthRoot (-8) (-3.5) = .done (-1) [Event.negativeEvenRoot] ↔ Even (truncate (-3.5))) ∧
    nthRoot (-8) (-3.5) ≠ .done (-1) [Event.negativeEvenRoot] := by
  have ht : truncate (-3.5) = -3 :=
    truncate_of_neg (-3.5) (-3) (by norm_num) (by norm_num) (by norm_num)
  have h := nthRoot_negative_error_iff (-8) (-3.5) (by norm_num) (by rw [ht]; norm_num)
    (by rw [ht]; norm_num)
  refine ⟨by norm_num, ht, h.1, fun hrun => ?_⟩
  have heven := h.1.mp hrun
  rw [ht] at heven
  exact absurd heven (by decide)

end Calculator
